import Mathlib

/-!
Shallow embedding of the exam seating allocation and clash detection engine
(`algo.py` of the Optimizing_Seating_Arrangement repository), together with
theorems settling the specification claims about it.

Modelling conventions:
* pandas dataframes become lists of records; machine integers become `Int`
  (Python integers are unbounded, so no wrap-around is modelled);
* the per-session room pool (a `defaultdict(list)` keyed by floor) becomes an
  association list preserving insertion order;
* Python `list.sort` (stable) becomes `List.insertionSort` with a reflexive
  total preorder, which is stable;
* `math.floor(x * 0.5)` on an integer `x` equals floor division by 2, which
  for the positive divisor 2 coincides with `Int` euclidean division `x / 2`;
* `list(common_rolls)` enumerates a Python `set` of strings, whose order is
  hash dependent and varies across processes; it is modelled by an explicit
  enumeration parameter `setOrder` that permutes the deterministically
  computed intersection list.
-/

namespace Seating

/-- Seating mode: the engine accepts exactly the strings dense and sparse. -/
inductive Mode
  | dense
  | sparse
deriving DecidableEq, Repr

/-- One row of the in_room_capacity sheet: room no., exam capacity, block. -/
structure RawRoom where
  roomNo : String
  examCapacity : Int
  block : String
deriving DecidableEq, Repr

/-- A working room record as carried in the per-session pool
(the dict built from a classroom_master row plus derived columns). -/
structure Room where
  roomNo : String
  block : String
  examCapacity : Int
  floor : String
  adjusted : Int
deriving DecidableEq, Repr

/-- One row of the expanded exam schedule
(output of parse_exam_schedule): date, day, session, subject_code. -/
structure ExamSlot where
  date : String
  day : String
  session : String
  subject_code : String
deriving DecidableEq, Repr

/-- One allocation record as written by write_allocation_to_file. -/
structure AllocationRecord where
  date : String
  day : String
  session : String
  course_code : String
  room : String
  block : String
  allocated_student_count : Nat
  roll_list : List String
  exam_capacity : Int
  adjusted_capacity : Int
  floor : String
deriving DecidableEq, Repr

/-- One clash record as appended to self.clashes in detect_clashes. -/
structure Clash where
  date : String
  day : String
  session : String
  subjects : List String
  roll_numbers : List String
deriving DecidableEq, Repr

/-- The constant fields of the records emitted for one subject in one
session group (the date, day, session, subject_code arguments of
allocate_subject_rooms). -/
structure Ctx where
  date : String
  day : String
  session : String
  course_code : String
deriving DecidableEq, Repr

/-- extract_floor_info: the floor is the leading character of the room
number when it is a digit, otherwise the string 0. -/
def floorOf (roomNo : String) : String :=
  match roomNo.data with
  | [] => "0"
  | c :: _ => if c.isDigit then String.mk [c] else "0"

/-- load_data line 92 plus extract_floor_info: build the working room record;
adjusted capacity is exam capacity minus buffer, with no clamping. -/
def mkRoom (buffer : Int) (r : RawRoom) : Room :=
  { roomNo := r.roomNo
    block := r.block
    examCapacity := r.examCapacity
    floor := floorOf r.roomNo
    adjusted := r.examCapacity - buffer }

/-- The per-session room pool: floors in insertion order, each with its
list of rooms (available_rooms_by_floor). -/
abbrev Pool := List (String × List Room)

/-- Append a room to the entry of its floor, creating the entry at the end
when the floor is new (defaultdict(list) access plus append). -/
def poolInsert (p : Pool) (r : Room) : Pool :=
  match p with
  | [] => [(r.floor, [r])]
  | (f, rs) :: rest =>
    if f = r.floor then (f, rs ++ [r]) :: rest
    else (f, rs) :: poolInsert rest r

/-- allocate_seats lines 289 to 295: rooms sorted by exam capacity
descending, then grouped by floor in insertion order. -/
def buildPool (buffer : Int) (raws : List RawRoom) : Pool :=
  (List.insertionSort (fun a b : Room => b.examCapacity ≤ a.examCapacity)
    (raws.map (mkRoom buffer))).foldl poolInsert []

/-- Total remaining adjusted capacity of a list of rooms on one floor. -/
def floorTotal (rs : List Room) : Int :=
  (rs.map (·.adjusted)).sum

/-- Look up the room list of a floor in the pool (dict access; empty when
the key is absent). -/
def lookupFloor (pool : Pool) (f : String) : List Room :=
  match pool.find? (fun e => e.1 = f) with
  | some e => e.2
  | none => []

/-- select_best_floor lines 363 to 371: running maximum with strict
improvement over the floors in iteration order, starting from 0. -/
def fallbackFloor : Pool → Int → Option String → Option String
  | [], _, best => best
  | (f, rs) :: rest, maxCap, best =>
    if maxCap < floorTotal rs then fallbackFloor rest (floorTotal rs) (some f)
    else fallbackFloor rest maxCap best

/-- select_best_floor: first floor (in pool iteration order) with a
non-empty room list whose total is at least the remaining count; otherwise
the fallback scan for the strictly largest positive total. -/
def select_best_floor (pool : Pool) (remaining : Int) : Option String :=
  match pool.find? (fun e => !e.2.isEmpty && decide (remaining ≤ floorTotal e.2)) with
  | some e => some e.1
  | none => fallbackFloor pool 0 none

/-- select_best_room: dense mode takes the last room (in list order) whose
adjusted capacity fits all remaining students, else the first room; sparse
mode always takes the first room; an empty list yields none (the IndexError
path that returns None). -/
def select_best_room (mode : Mode) (rooms : List Room) (remaining : Int) : Option Room :=
  match rooms with
  | [] => none
  | r0 :: _ =>
    match mode with
    | Mode.sparse => some r0
    | Mode.dense =>
      match (rooms.filter (fun r => decide (remaining ≤ r.adjusted))).getLast? with
      | some r => some r
      | none => some r0

/-- The per-step cap of allocate_subject_rooms lines 418 to 422: the
current adjusted capacity in dense mode, its floor half in sparse mode. -/
def stepCap (mode : Mode) (adj : Int) : Int :=
  match mode with
  | Mode.dense => adj
  | Mode.sparse => adj / 2

/-- Replace the first occurrence of a value in a list (the in-place dict
mutation of the selected room, resolved by value). -/
def replaceFirst : List Room → Room → Room → List Room
  | [], _, _ => []
  | x :: xs, r, r2 => if x = r then r2 :: xs else x :: replaceFirst xs r r2

/-- The selected room after its adjusted capacity is decremented. -/
def decRoom (r : Room) (c : Nat) : Room :=
  { r with adjusted := r.adjusted - c }

/-- allocate_subject_rooms lines 453 to 461: decrement the selected room,
remove it when its capacity is now at most 0, otherwise re-sort the floor
by adjusted capacity descending (Python sort is stable). -/
def updateFloor (rs : List Room) (r : Room) (c : Nat) : List Room :=
  let r2 := decRoom r c
  let rs2 := replaceFirst rs r r2
  if r2.adjusted ≤ 0 then rs2.erase r2
  else List.insertionSort (fun a b : Room => b.adjusted ≤ a.adjusted) rs2

/-- Apply updateFloor to the entry of the given floor. -/
def updatePool (pool : Pool) (f : String) (r : Room) (c : Nat) : Pool :=
  pool.map (fun e => if e.1 = f then (e.1, updateFloor e.2 r c) else e)

/-- allocate_subject_rooms line 427: remove the selected room from its
floor (list.remove removes the first equal entry). -/
def eraseRoom (pool : Pool) (f : String) (r : Room) : Pool :=
  pool.map (fun e => if e.1 = f then (e.1, e.2.erase r) else e)

/-- Result of one iteration of the while loop of allocate_subject_rooms. -/
inductive StepResult
  | stop (pool : Pool)
  | skip (pool : Pool)
  | alloc (pool : Pool) (record : AllocationRecord) (actual : Nat)
deriving DecidableEq, Repr

/-- One iteration of the while loop of allocate_subject_rooms: select a
floor, select a room, cap the allocation, either break (stop), remove an
exhausted room and continue (skip), or emit a record (alloc). -/
def allocStep (mode : Mode) (ctx : Ctx) (pool : Pool) (remaining : Nat)
    (rolls : List String) : StepResult :=
  match select_best_floor pool (remaining : Int) with
  | none => StepResult.stop pool
  | some f =>
    let rs := lookupFloor pool f
    if rs.isEmpty then StepResult.stop pool
    else
      match select_best_room mode rs (remaining : Int) with
      | none => StepResult.stop pool
      | some room =>
        let sta : Int := min (remaining : Int) (stepCap mode room.adjusted)
        if sta ≤ 0 then
          StepResult.skip (eraseRoom pool f room)
        else
          let allocated := rolls.take sta.toNat
          let actual := allocated.length
          StepResult.alloc (updatePool pool f room actual)
            { date := ctx.date
              day := ctx.day
              session := ctx.session
              course_code := ctx.course_code
              room := room.roomNo
              block := room.block
              allocated_student_count := actual
              roll_list := allocated
              exam_capacity := room.examCapacity
              adjusted_capacity := room.adjusted
              floor := room.floor }
            actual

/-- The while loop of allocate_subject_rooms with the iteration ceiling as
fuel (max_iterations is 100); returns the final pool, the emitted records
appended to the accumulator, and the remaining student count. -/
def allocLoop (mode : Mode) (ctx : Ctx) :
    Nat → Pool → Nat → List String → List AllocationRecord →
    Pool × List AllocationRecord × Nat
  | 0, pool, remaining, _, acc => (pool, acc, remaining)
  | fuel + 1, pool, remaining, rolls, acc =>
    if remaining = 0 then (pool, acc, remaining)
    else
      match allocStep mode ctx pool remaining rolls with
      | StepResult.stop pool2 => (pool2, acc, remaining)
      | StepResult.skip pool2 => allocLoop mode ctx fuel pool2 remaining rolls acc
      | StepResult.alloc pool2 record actual =>
        allocLoop mode ctx fuel pool2 (remaining - actual) (rolls.drop actual)
          (acc ++ [record])

/-- allocate_subject_rooms: run the loop with the subject roster, the
remaining count starting at the roster length (student_count is computed as
the length of the same roster), and the ceiling of 100 iterations. -/
def allocate_subject_rooms (mode : Mode) (ctx : Ctx) (pool : Pool)
    (rolls : List String) : Pool × List AllocationRecord × Nat :=
  allocLoop mode ctx 100 pool rolls.length rolls []

/-- First-seen deduplication (pandas unique keeps the first occurrence). -/
def dedupAux {α : Type} [DecidableEq α] : List α → List α → List α
  | [], acc => acc
  | x :: xs, acc => if x ∈ acc then dedupAux xs acc else dedupAux xs (acc ++ [x])

/-- First-seen deduplication of a list. -/
def dedupKeepFirst {α : Type} [DecidableEq α] (l : List α) : List α :=
  dedupAux l []

/-- get_rolls_for_subject: the distinct roll numbers of the roster rows
whose course_code matches, in first-seen order. -/
def get_rolls_for_subject (roster : List (String × String)) (subj : String) :
    List String :=
  dedupKeepFirst ((roster.filter (fun p => p.1 = subj)).map (·.2))

/-- The group key of a schedule row: date, day, session. -/
def keyOf (e : ExamSlot) : String × String × String :=
  (e.date, e.day, e.session)

/-- Strict lexicographic comparison of character lists by code point
(the comparison Python uses on strings; semantically String.lt, written
so that the kernel can evaluate it). -/
def lexLt : List Char → List Char → Bool
  | [], [] => false
  | [], _ :: _ => true
  | _ :: _, [] => false
  | a :: as, b :: bs =>
    if a.toNat < b.toNat then true
    else if b.toNat < a.toNat then false
    else lexLt as bs

/-- Strict comparison of strings by code point. -/
def strLt (a b : String) : Bool :=
  lexLt a.data b.data

/-- Lexicographic order on group keys (pandas groupby sorts its keys). -/
def keyLeB (a b : String × String × String) : Bool :=
  strLt a.1 b.1 ||
    (a.1 == b.1 &&
      (strLt a.2.1 b.2.1 ||
        (a.2.1 == b.2.1 && (strLt a.2.2 b.2.2 || a.2.2 == b.2.2))))

/-- Lexicographic order on group keys as a proposition. -/
def keyLe (a b : String × String × String) : Prop :=
  keyLeB a b = true

instance : DecidableRel keyLe := fun a b => by
  unfold keyLe
  infer_instance

/-- The distinct group keys of the schedule in ascending lexicographic
order (the iteration order of pandas groupby). -/
def groupKeys (schedule : List ExamSlot) : List (String × String × String) :=
  List.insertionSort keyLe (dedupKeepFirst (schedule.map keyOf))

/-- The distinct subject codes of one session group in first-seen order. -/
def groupSubjects (schedule : List ExamSlot) (k : String × String × String) :
    List String :=
  dedupKeepFirst ((schedule.filter (fun e => keyOf e = k)).map (·.subject_code))

/-- allocate_seats lines 281 to 286: subjects with their enrollment counts,
stably sorted by count descending. -/
def sortedSubjects (schedule : List ExamSlot) (roster : List (String × String))
    (k : String × String × String) : List String :=
  (List.insertionSort (fun a b : String × Nat => b.2 ≤ a.2)
    ((groupSubjects schedule k).map
      (fun s => (s, (get_rolls_for_subject roster s).length)))).map (·.1)

/-- The allocation pass of one session group: process the subjects in
order, threading the shared pool; the record accumulator passed through the
loop models the temporary allocation file, which every call of
allocate_subject_rooms appends its records to. -/
def allocGroup (mode : Mode) (roster : List (String × String))
    (k : String × String × String) (pool : Pool) (subjects : List String) :
    Pool × List AllocationRecord :=
  subjects.foldl
    (fun st subj =>
      let r := allocLoop mode
        { date := k.1, day := k.2.1, session := k.2.2, course_code := subj }
        100 st.1 (get_rolls_for_subject roster subj).length
        (get_rolls_for_subject roster subj) st.2
      (r.1, r.2.1))
    (pool, [])

/-- allocate_seats: for each session group in key order, build a fresh pool
from the room table and allocate every subject of the group; the output is
the concatenation of all emitted records in emission order. -/
def allocate_seats (mode : Mode) (buffer : Int) (schedule : List ExamSlot)
    (roster : List (String × String)) (roomTable : List RawRoom) :
    List AllocationRecord :=
  (groupKeys schedule).flatMap
    (fun k =>
      (allocGroup mode roster k (buildPool buffer roomTable)
        (sortedSubjects schedule roster k)).2)

/-- All unordered pairs of a list in itertools.combinations order. -/
def pairsOf : List String → List (String × String)
  | [] => []
  | x :: xs => xs.map (fun y => (x, y)) ++ pairsOf xs

/-- detect_clashes, one subject pair: the intersection of the two rosters
(the elements of the first roster that occur in the second, which is the
content of the Python set intersection); a non-empty intersection yields
one clash record whose roll list is the intersection enumerated by
setOrder (the Python set iteration order). -/
def pairClash (setOrder : List String → List String)
    (roster : List (String × String)) (k : String × String × String)
    (p : String × String) : Option Clash :=
  let r1 := get_rolls_for_subject roster p.1
  let r2 := get_rolls_for_subject roster p.2
  let common := r1.filter (fun s => decide (s ∈ r2))
  if common.isEmpty then none
  else
    some { date := k.1
           day := k.2.1
           session := k.2.2
           subjects := [p.1, p.2]
           roll_numbers := setOrder common }

/-- detect_clashes, one session group: one clash record per subject pair
with overlapping enrollment, in combinations order. -/
def groupClashes (setOrder : List String → List String)
    (roster : List (String × String)) (k : String × String × String)
    (subjects : List String) : List Clash :=
  (pairsOf subjects).filterMap (pairClash setOrder roster k)

/-- detect_clashes: the clash records of all session groups in group key
order, and the return value, which is true exactly when no clash was
recorded. -/
def detect_clashes (setOrder : List String → List String)
    (schedule : List ExamSlot) (roster : List (String × String)) :
    List Clash × Bool :=
  let cs := (groupKeys schedule).flatMap
    (fun k => groupClashes setOrder roster k (groupSubjects schedule k))
  (cs, cs.isEmpty)

/-- validate_mode: accepts exactly the strings dense and sparse. -/
def validate_mode (mode : String) : Except String Unit :=
  if mode = "dense" ∨ mode = "sparse" then Except.ok ()
  else Except.error "Mode must be either dense or sparse"

/-- The constructor of ExamSeatingArrangement: stores buffer and mode and
calls validate_mode; the buffer value is not checked. -/
def initEngine (buffer : Int) (mode : String) : Except String (Int × String) :=
  match validate_mode mode with
  | Except.ok _ => Except.ok (buffer, mode)
  | Except.error e => Except.error e

/-- The rooms of a pool in entry order (all floors joined). -/
def roomsOf (pool : Pool) : List Room :=
  (pool.map (·.2)).flatten

/-- Sum of allocated student counts over the records naming a room. -/
def sumCountsFor (recs : List AllocationRecord) (n : String) : Nat :=
  ((recs.filter (fun r => r.room = n)).map (·.allocated_student_count)).sum

/-- Sum of adjusted capacities of the rooms with a given room number. -/
def adjFor (rs : List Room) (n : String) : Int :=
  ((rs.filter (fun r => r.roomNo = n)).map (·.adjusted)).sum

/-- Number of rooms with a given room number. -/
def countFor (rs : List Room) (n : String) : Nat :=
  (rs.filter (fun r => r.roomNo = n)).length

/-- Total number of rooms in a pool. -/
def totalRooms (pool : Pool) : Nat :=
  (roomsOf pool).length

/-- The group key carried by an allocation record. -/
def recKeyOf (r : AllocationRecord) : String × String × String :=
  (r.date, r.day, r.session)

/-- Sum of allocated student counts of a record list. -/
def sumCounts (recs : List AllocationRecord) : Nat :=
  (recs.map (·.allocated_student_count)).sum

/-- The bookkeeping invariant of a room pool during one session group: the
floor keys are distinct; no two rooms of the pool share a room number; for
every room number the seats already granted to it plus its remaining (non
negative part of) capacity never exceed the positive part of its initial
adjusted capacity; and in sparse mode every granted record respects the
half-capacity step cap relative to the initial adjusted capacity. -/
def PoolInv (mode : Mode) (B : String → Int) (pool : Pool)
    (recs : List AllocationRecord) : Prop :=
  (pool.map Prod.fst).Nodup ∧
  (∀ n, countFor (roomsOf pool) n ≤ 1) ∧
  (∀ n, (sumCountsFor recs n : Int) + max (adjFor (roomsOf pool) n) 0 ≤
    max (B n) 0) ∧
  (mode = Mode.sparse →
    ∀ rec ∈ recs, (rec.allocated_student_count : Int) ≤ B rec.room / 2)

/-- The initial adjusted capacity of the room of a given room number, read
off the room table (0 when no such room exists). -/
def initAdj (buffer : Int) (roomTable : List RawRoom) (n : String) : Int :=
  match roomTable.find? (fun raw => decide (raw.roomNo = n)) with
  | some raw => raw.examCapacity - buffer
  | none => 0

/-- The floor selection rule exactly as the spec words it, for comparison
with select_best_floor: floors sorted ascending by floor key, first floor
whose total is at least the remaining count, else the floor with the single
largest total, ties broken by floor key ascending. -/
def selectFloorSpec (pool : Pool) (remaining : Int) : Option String :=
  let sorted := List.insertionSort
    (fun a b : String × List Room => strLt a.1 b.1 || a.1 == b.1) pool
  match sorted.find? (fun e => decide (remaining ≤ floorTotal e.2)) with
  | some e => some e.1
  | none =>
    (sorted.find?
      (fun e => decide (∀ e2 ∈ sorted, floorTotal e2.2 ≤ floorTotal e.2))).map (·.1)

/- Concrete inputs used by counterexamples and witnesses. -/

/-- A schedule with a single slot. -/
def sched1 : List ExamSlot := [⟨"d1", "Mon", "morning", "S1"⟩]

/-- A roster with a single enrollment. -/
def roster1 : List (String × String) := [("S1", "r1")]

/-- A single room of exam capacity 3. -/
def rooms1 : List RawRoom := [⟨"101", 3, "B"⟩]

/-- Two slots sharing date and session but with different day values. -/
def schedSplit : List ExamSlot :=
  [⟨"d", "Mon", "morning", "A"⟩, ⟨"d", "Tue", "morning", "B"⟩]

/-- Four students in each of the two subjects of schedSplit. -/
def rosterSplit : List (String × String) :=
  [("A", "a1"), ("A", "a2"), ("A", "a3"), ("A", "a4"),
   ("B", "b1"), ("B", "b2"), ("B", "b3"), ("B", "b4")]

/-- A single room of exam capacity 4. -/
def roomsSplit : List RawRoom := [⟨"101", 4, "Blk"⟩]

/-- Two subjects sharing date and session but with different day values,
with one common student. -/
def rosterSplitClash : List (String × String) := [("A", "r1"), ("B", "r1")]

/-- Two subjects in the same session group with two common students. -/
def schedPair : List ExamSlot :=
  [⟨"d", "Mon", "morning", "A"⟩, ⟨"d", "Mon", "morning", "B"⟩]

/-- The roster of schedPair: students r1 and r2 take both subjects. -/
def rosterPair : List (String × String) :=
  [("A", "r1"), ("A", "r2"), ("B", "r1"), ("B", "r2")]

/-- A single room of exam capacity 10 (its floor key is 0 since R is not a
digit). -/
def room10 : List RawRoom := [⟨"R1", 10, "B"⟩]

/-- Ten distinct roll numbers. -/
def rolls10 : List String :=
  ["s1", "s2", "s3", "s4", "s5", "s6", "s7", "s8", "s9", "s10"]

/-- The subject context of the sparse scenario. -/
def ctxC6 : Ctx := ⟨"d", "Mon", "morning", "S"⟩

/-- The sparse scenario run: one room of capacity 10, buffer 0, one subject
with ten students. -/
def runC6 : Pool × List AllocationRecord × Nat :=
  allocate_subject_rooms Mode.sparse ctxC6 (buildPool 0 room10) rolls10

/-- A pool with floor 2 (capacity 10) before floor 1 (capacity 5) in
insertion order. -/
def poolTwoFloors : Pool :=
  buildPool 0 [⟨"201", 10, "B"⟩, ⟨"101", 5, "B"⟩]

/-- The subject context of the single-slot schedule. -/
def ctx1 : Ctx := ⟨"d1", "Mon", "morning", "S1"⟩

/-- The record emitted when one student is seated in room 101 (capacity 3,
buffer 1). -/
def recOne : AllocationRecord :=
  { date := "d1"
    day := "Mon"
    session := "morning"
    course_code := "S1"
    room := "101"
    block := "B"
    allocated_student_count := 1
    roll_list := ["r1"]
    exam_capacity := 3
    adjusted_capacity := 2
    floor := "1" }

/-- Room 101 with one remaining seat, as left after seating one student. -/
def roomOneLeft : Room :=
  { roomNo := "101", block := "B", examCapacity := 3, floor := "1", adjusted := 1 }

/-- A pool whose single room has adjusted capacity 1: a sparse step caps at
0 and must skip. -/
def poolSkip : Pool := buildPool 0 [⟨"101", 1, "B"⟩]

end Seating

namespace Seating

/-- C7 counterexample: with buffer 5 and exam capacity 3 the constructed
adjusted capacity is -2; it is not clamped to 0, so the claimed
non-negativity fails. -/
theorem adjusted_capacity_cex :
    (mkRoom 5 ⟨"101", 3, "B"⟩).adjusted = -2 ∧
      ¬ (0 ≤ (mkRoom 5 ⟨"101", 3, "B"⟩).adjusted) := by
  decide

/-- C7 amended: the adjusted capacity computed at load time is exactly exam
capacity minus buffer, with no clamping, and it is negative precisely when
the buffer exceeds the exam capacity. -/
theorem adjusted_capacity_amended :
    ∀ (buffer : Int) (r : RawRoom),
      (mkRoom buffer r).adjusted = r.examCapacity - buffer ∧
        ((mkRoom buffer r).adjusted < 0 ↔ r.examCapacity < buffer) := by
  intro buffer r
  refine ⟨rfl, ?_⟩
  simp [mkRoom]

/-- C8 counterexample: constructing the engine with a negative buffer and a
valid mode succeeds, so the claimed fatal error on a negative buffer does
not exist. -/
theorem config_validation_cex :
    (initEngine (-1) "dense").toOption.isSome = true ∧ ((-1 : Int) < 0) := by
  decide

/-- C8 amended: construction succeeds exactly when the mode is dense or
sparse; the buffer value, negative or not, is never checked. -/
theorem config_validation_amended :
    ∀ (buffer : Int) (mode : String),
      (initEngine buffer mode).toOption.isSome = true ↔
        (mode = "dense" ∨ mode = "sparse") := by
  intro buffer mode
  by_cases h : mode = "dense" ∨ mode = "sparse" <;>
    simp [initEngine, validate_mode, h, Except.toOption]

/-- C4: the clash record contents depend on the set enumeration order,
which Python draws from randomized string hashing: two admissible
enumerations of the same intersection (identity and reversal, both
permutations of it) produce different clash sequences on the same input,
so re-running the engine is not byte-identical. -/
theorem clash_order_nondeterminism :
    (detect_clashes (fun l => l.reverse) schedPair rosterPair).1 ≠
        (detect_clashes (fun l => l) schedPair rosterPair).1 ∧
      (detect_clashes (fun l => l) schedPair rosterPair).1.map
          (·.roll_numbers) = [["r1", "r2"]] ∧
      (detect_clashes (fun l => l.reverse) schedPair rosterPair).1.map
          (·.roll_numbers) = [["r2", "r1"]] ∧
      List.Perm ["r2", "r1"] ["r1", "r2"] := by
  decide

/-- C5 counterexample: with floor 2 (total 10) preceding floor 1 (total 5)
in pool insertion order and 4 students remaining, the code returns floor 2,
while the first qualifying floor in ascending floor key order is floor 1. -/
theorem floor_selection_cex :
    select_best_floor poolTwoFloors 4 = some "2" ∧
      selectFloorSpec poolTwoFloors 4 = some "1" ∧
      4 ≤ floorTotal (lookupFloor poolTwoFloors "1") := by
  decide

/-- C6 counterexample: sparse mode, one room of capacity 10, buffer 0, ten
students: the emitted records hold 5, 2, 1 and 1 students, not two records
of 5 each, because the per-step cap is half of the current remaining
capacity, which shrinks after every step. -/
theorem sparse_scenario_cex :
    runC6.2.1.map (·.allocated_student_count) ≠ [5, 5] ∧
      runC6.2.1.map (·.allocated_student_count) = [5, 2, 1, 1] := by
  decide

/-- C6 amended: in that scenario the engine emits four records of 5, 2, 1
and 1 students, all into the single room, leaves a deficit of 1 student,
and never emits a single 10-student record. -/
theorem sparse_scenario_amended :
    runC6.2.1.map (·.allocated_student_count) = [5, 2, 1, 1] ∧
      runC6.2.1.map (·.room) = ["R1", "R1", "R1", "R1"] ∧
      runC6.2.2 = 1 ∧
      runC6.2.1.all (fun r => r.allocated_student_count != 10) = true := by
  decide

/-- C1 counterexample: the stated dense bound fails in two ways. With
buffer 5 on a capacity 3 room the adjusted capacity is -2 and the group sum
0 exceeds it; and two subjects listed under the same date and session but
different day values are allocated from two fresh pools, so the records of
the (date, session) group sum to 8 in a room whose adjusted capacity is 4. -/
theorem capacity_claim_cex :
    ¬ ((sumCountsFor (allocate_seats Mode.dense 5 sched1 roster1 rooms1)
          "101" : Int) ≤ (mkRoom 5 ⟨"101", 3, "B"⟩).adjusted) ∧
      sumCountsFor
          ((allocate_seats Mode.dense 0 schedSplit rosterSplit
            roomsSplit).filter
            (fun r => r.date = "d" ∧ r.session = "morning")) "101" = 8 ∧
      ¬ ((8 : Int) ≤ (mkRoom 0 ⟨"101", 4, "Blk"⟩).adjusted) := by
  decide

/-- C3 counterexample: subjects A and B are both scheduled on date d in the
morning session and share student r1, yet detect_clashes reports no clash
at all, because the code groups by date, day and session and the two slots
carry different day values. -/
theorem clash_group_cex :
    (detect_clashes (fun l => l) schedSplit rosterSplitClash).1 = [] ∧
      "r1" ∈ get_rolls_for_subject rosterSplitClash "A" ∧
      "r1" ∈ get_rolls_for_subject rosterSplitClash "B" ∧
      schedSplit.map (fun e => (e.date, e.session)) =
        [("d", "morning"), ("d", "morning")] ∧
      schedSplit.map (·.subject_code) = ["A", "B"] := by
  decide

end Seating

namespace Seating

/-! Structural lemmas about pool lookup, selection and update. -/

theorem lookupFloor_nil (f : String) : lookupFloor [] f = [] := by
  simp [lookupFloor]

theorem lookupFloor_cons (e : String × List Room) (rest : Pool) (f : String) :
    lookupFloor (e :: rest) f = if e.1 = f then e.2 else lookupFloor rest f := by
  by_cases h : e.1 = f <;> simp [lookupFloor, List.find?_cons, h]

theorem select_best_room_mem {mode : Mode} {rs : List Room} {k : Int} {r : Room}
    (h : select_best_room mode rs k = some r) : r ∈ rs := by
  cases rs with
  | nil => simp [select_best_room] at h
  | cons r0 rest =>
    cases mode with
    | sparse =>
      simp only [select_best_room] at h
      cases h
      exact List.mem_cons_self _ _
    | dense =>
      simp only [select_best_room] at h
      cases hl : ((r0 :: rest).filter (fun x => decide (k ≤ x.adjusted))).getLast? with
      | some x =>
        rw [hl] at h
        cases h
        exact List.mem_of_mem_filter (List.mem_of_getLast?_eq_some hl)
      | none =>
        rw [hl] at h
        cases h
        exact List.mem_cons_self _ _

theorem mem_replaceFirst {rs : List Room} {a b x : Room}
    (h : x ∈ replaceFirst rs a b) : x ∈ rs ∨ x = b := by
  induction rs with
  | nil => simp [replaceFirst] at h
  | cons y ys ih =>
    simp only [replaceFirst] at h
    by_cases hy : y = a
    · rw [if_pos hy] at h
      rcases List.mem_cons.mp h with h1 | h1
      · exact Or.inr h1
      · exact Or.inl (List.mem_cons_of_mem _ h1)
    · rw [if_neg hy] at h
      rcases List.mem_cons.mp h with h1 | h1
      · exact Or.inl (h1 ▸ List.mem_cons_self _ _)
      · rcases ih h1 with h2 | h2
        · exact Or.inl (List.mem_cons_of_mem _ h2)
        · exact Or.inr h2

theorem mem_updateFloor {rs : List Room} {r : Room} {c : Nat} {x : Room}
    (h : x ∈ updateFloor rs r c) : x ∈ rs ∨ x = decRoom r c := by
  simp only [updateFloor] at h
  by_cases h0 : (decRoom r c).adjusted ≤ 0
  · rw [if_pos h0] at h
    exact mem_replaceFirst (List.erase_subset _ _ h)
  · rw [if_neg h0] at h
    exact mem_replaceFirst ((List.mem_insertionSort _).mp h)

theorem roomsOf_nil : roomsOf [] = [] := by
  simp [roomsOf]

theorem roomsOf_cons (e : String × List Room) (rest : Pool) :
    roomsOf (e :: rest) = e.2 ++ roomsOf rest := by
  simp [roomsOf]

theorem updatePool_cons (e : String × List Room) (rest : Pool) (f : String)
    (r : Room) (c : Nat) :
    updatePool (e :: rest) f r c =
      (if e.1 = f then (e.1, updateFloor e.2 r c) else e) :: updatePool rest f r c :=
  rfl

theorem eraseRoom_cons (e : String × List Room) (rest : Pool) (f : String)
    (r : Room) :
    eraseRoom (e :: rest) f r =
      (if e.1 = f then (e.1, e.2.erase r) else e) :: eraseRoom rest f r :=
  rfl

theorem mem_roomsOf_updatePool {pool : Pool} {f : String} {r : Room} {c : Nat}
    {x : Room} (h : x ∈ roomsOf (updatePool pool f r c)) :
    x ∈ roomsOf pool ∨ x = decRoom r c := by
  induction pool with
  | nil => simp [updatePool, roomsOf] at h
  | cons e rest ih =>
    rw [updatePool_cons, roomsOf_cons] at h
    rw [roomsOf_cons]
    rcases List.mem_append.mp h with h1 | h1
    · by_cases hf : e.1 = f
      · rw [if_pos hf] at h1
        rcases mem_updateFloor h1 with h2 | h2
        · exact Or.inl (List.mem_append_left _ h2)
        · exact Or.inr h2
      · rw [if_neg hf] at h1
        exact Or.inl (List.mem_append_left _ h1)
    · rcases ih h1 with h2 | h2
      · exact Or.inl (List.mem_append_right _ h2)
      · exact Or.inr h2

theorem mem_roomsOf_eraseRoom {pool : Pool} {f : String} {r : Room} {x : Room}
    (h : x ∈ roomsOf (eraseRoom pool f r)) : x ∈ roomsOf pool := by
  induction pool with
  | nil => simp [eraseRoom, roomsOf] at h
  | cons e rest ih =>
    rw [eraseRoom_cons, roomsOf_cons] at h
    rw [roomsOf_cons]
    rcases List.mem_append.mp h with h1 | h1
    · by_cases hf : e.1 = f
      · rw [if_pos hf] at h1
        exact List.mem_append_left _ (List.erase_subset _ _ h1)
      · rw [if_neg hf] at h1
        exact List.mem_append_left _ h1
    · exact List.mem_append_right _ (ih h1)

theorem mem_lookupFloor_roomsOf {pool : Pool} {f : String} {x : Room}
    (h : x ∈ lookupFloor pool f) : x ∈ roomsOf pool := by
  induction pool with
  | nil => rw [lookupFloor_nil] at h; cases h
  | cons e rest ih =>
    rw [lookupFloor_cons] at h
    rw [roomsOf_cons]
    by_cases hf : e.1 = f
    · rw [if_pos hf] at h
      exact List.mem_append_left _ h
    · rw [if_neg hf] at h
      exact List.mem_append_right _ (ih h)

/-! Inversion lemmas for one iteration of the allocation loop. -/

theorem allocStep_alloc_spec {mode : Mode} {ctx : Ctx} {pool : Pool}
    {remaining : Nat} {rolls : List String} {pool2 : Pool}
    {record : AllocationRecord} {actual : Nat}
    (h : allocStep mode ctx pool remaining rolls = StepResult.alloc pool2 record actual) :
    ∃ f room,
      select_best_floor pool (remaining : Int) = some f ∧
      room ∈ lookupFloor pool f ∧
      0 < min (remaining : Int) (stepCap mode room.adjusted) ∧
      actual = (rolls.take (min (remaining : Int) (stepCap mode room.adjusted)).toNat).length ∧
      pool2 = updatePool pool f room actual ∧
      record =
        { date := ctx.date
          day := ctx.day
          session := ctx.session
          course_code := ctx.course_code
          room := room.roomNo
          block := room.block
          allocated_student_count := actual
          roll_list := rolls.take (min (remaining : Int) (stepCap mode room.adjusted)).toNat
          exam_capacity := room.examCapacity
          adjusted_capacity := room.adjusted
          floor := room.floor } := by
  simp only [allocStep] at h
  split at h
  · cases h
  · rename_i f hf
    split at h
    · cases h
    · rename_i he
      split at h
      · cases h
      · rename_i room hr
        split at h
        · cases h
        · rename_i hsta
          injection h with h1 h2 h3
          subst h3
          exact ⟨f, room, hf, select_best_room_mem hr, by omega, rfl, h1.symm, h2.symm⟩

theorem allocStep_skip_spec {mode : Mode} {ctx : Ctx} {pool : Pool}
    {remaining : Nat} {rolls : List String} {pool2 : Pool}
    (h : allocStep mode ctx pool remaining rolls = StepResult.skip pool2) :
    ∃ f room,
      select_best_floor pool (remaining : Int) = some f ∧
      room ∈ lookupFloor pool f ∧
      min (remaining : Int) (stepCap mode room.adjusted) ≤ 0 ∧
      pool2 = eraseRoom pool f room := by
  simp only [allocStep] at h
  split at h
  · cases h
  · rename_i f hf
    split at h
    · cases h
    · rename_i he
      split at h
      · cases h
      · rename_i room hr
        split at h
        · rename_i hsta
          injection h with h1
          exact ⟨f, room, hf, select_best_room_mem hr, hsta, h1.symm⟩
        · cases h

theorem allocStep_stop_spec {mode : Mode} {ctx : Ctx} {pool : Pool}
    {remaining : Nat} {rolls : List String} {pool2 : Pool}
    (h : allocStep mode ctx pool remaining rolls = StepResult.stop pool2) :
    pool2 = pool := by
  simp only [allocStep] at h
  split at h
  · injection h with h1
    exact h1.symm
  · split at h
    · injection h with h1
      exact h1.symm
    · split at h
      · injection h with h1
        exact h1.symm
      · split at h
        · cases h
        · cases h

end Seating

namespace Seating

/-! Lemmas about whole runs of the allocation loop. -/

theorem totalRooms_cons (e : String × List Room) (rest : Pool) :
    totalRooms (e :: rest) = e.2.length + totalRooms rest := by
  simp [totalRooms, roomsOf_cons]

theorem totalRooms_eraseRoom_le (f : String) (r : Room) :
    ∀ pool : Pool, totalRooms (eraseRoom pool f r) ≤ totalRooms pool := by
  intro pool
  induction pool with
  | nil => simp [eraseRoom]
  | cons e rest ih =>
    rw [eraseRoom_cons, totalRooms_cons, totalRooms_cons]
    by_cases hf : e.1 = f
    · rw [if_pos hf]
      dsimp only
      have hle : (e.2.erase r).length ≤ e.2.length := (List.erase_sublist r e.2).length_le
      omega
    · rw [if_neg hf]
      omega

theorem totalRooms_eraseRoom_lt {pool : Pool} {f : String} {r : Room}
    (hmem : r ∈ lookupFloor pool f) :
    totalRooms (eraseRoom pool f r) < totalRooms pool := by
  induction pool with
  | nil => rw [lookupFloor_nil] at hmem; cases hmem
  | cons e rest ih =>
    rw [lookupFloor_cons] at hmem
    rw [eraseRoom_cons, totalRooms_cons, totalRooms_cons]
    by_cases hf : e.1 = f
    · rw [if_pos hf] at hmem ⊢
      dsimp only
      have h1 : (e.2.erase r).length = e.2.length - 1 := List.length_erase_of_mem hmem
      have h2 : 0 < e.2.length := List.length_pos_of_mem hmem
      have h3 := totalRooms_eraseRoom_le f r rest
      omega
    · rw [if_neg hf] at hmem ⊢
      have := ih hmem
      omega

theorem allocLoop_records (mode : Mode) (ctx : Ctx) :
    ∀ (fuel : Nat) (pool : Pool) (remaining : Nat) (rolls : List String)
      (acc : List AllocationRecord),
      remaining = rolls.length →
      (∀ rec0 ∈ acc,
        1 ≤ rec0.allocated_student_count ∧
        rec0.allocated_student_count = rec0.roll_list.length ∧
        (rec0.allocated_student_count : Int) ≤ max rec0.adjusted_capacity 0 ∧
        rec0.date = ctx.date ∧ rec0.day = ctx.day ∧ rec0.session = ctx.session ∧
        rec0.course_code = ctx.course_code) →
      ∀ rec0 ∈ (allocLoop mode ctx fuel pool remaining rolls acc).2.1,
        1 ≤ rec0.allocated_student_count ∧
        rec0.allocated_student_count = rec0.roll_list.length ∧
        (rec0.allocated_student_count : Int) ≤ max rec0.adjusted_capacity 0 ∧
        rec0.date = ctx.date ∧ rec0.day = ctx.day ∧ rec0.session = ctx.session ∧
        rec0.course_code = ctx.course_code := by
  intro fuel
  induction fuel with
  | zero =>
    intro pool remaining rolls acc hlen hacc
    simpa [allocLoop] using hacc
  | succ n ih =>
    intro pool remaining rolls acc hlen hacc
    rw [allocLoop]
    by_cases h0 : remaining = 0
    · rw [if_pos h0]
      exact hacc
    · rw [if_neg h0]
      cases hs : allocStep mode ctx pool remaining rolls with
      | stop p => exact hacc
      | skip p => exact ih p remaining rolls acc hlen hacc
      | alloc p newRec actual =>
        obtain ⟨f, room, hf, hmem, hsta, hact, hpool, hrec⟩ := allocStep_alloc_spec hs
        subst hact
        refine ih p (remaining - _) (rolls.drop _) (acc ++ [newRec]) ?_ ?_
        · rw [List.length_drop, ← hlen]
        · intro rec0 hrec0
          rcases List.mem_append.mp hrec0 with hin | hin
          · exact hacc rec0 hin
          · have heq : rec0 = newRec := by simpa using hin
            subst heq
            rw [hrec]
            refine ⟨?_, ?_, ?_, rfl, rfl, rfl, rfl⟩ <;> dsimp only
            · rw [List.length_take]
              omega
            · rw [List.length_take]
              cases mode with
              | dense => simp only [stepCap] at hsta ⊢; omega
              | sparse => simp only [stepCap] at hsta ⊢; omega

theorem allocLoop_sum (mode : Mode) (ctx : Ctx) :
    ∀ (fuel : Nat) (pool : Pool) (remaining : Nat) (rolls : List String)
      (acc : List AllocationRecord),
      remaining = rolls.length →
      sumCounts (allocLoop mode ctx fuel pool remaining rolls acc).2.1 +
          (allocLoop mode ctx fuel pool remaining rolls acc).2.2 =
        sumCounts acc + remaining := by
  intro fuel
  induction fuel with
  | zero =>
    intro pool remaining rolls acc hlen
    simp [allocLoop]
  | succ n ih =>
    intro pool remaining rolls acc hlen
    rw [allocLoop]
    by_cases h0 : remaining = 0
    · rw [if_pos h0]
    · rw [if_neg h0]
      cases hs : allocStep mode ctx pool remaining rolls with
      | stop p => rfl
      | skip p => exact ih p remaining rolls acc hlen
      | alloc p newRec actual =>
        obtain ⟨f, room, hf, hmem, hsta, hact, hpool, hrec⟩ := allocStep_alloc_spec hs
        have hlen2 : remaining - actual = (rolls.drop actual).length := by
          rw [List.length_drop, ← hlen]
        have h := ih p (remaining - actual) (rolls.drop actual) (acc ++ [newRec]) hlen2
        have hsumapp : sumCounts (acc ++ [newRec]) = sumCounts acc + newRec.allocated_student_count := by
          simp [sumCounts]
        have hcount : newRec.allocated_student_count = actual := by
          rw [hrec, hact]
        have hactle : actual ≤ remaining := by
          rw [hact, List.length_take]
          omega
        rw [h, hsumapp, hcount]
        omega

theorem allocLoop_nonneg (mode : Mode) (ctx : Ctx) :
    ∀ (fuel : Nat) (pool : Pool) (remaining : Nat) (rolls : List String)
      (acc : List AllocationRecord),
      (∀ x ∈ roomsOf pool, 0 ≤ x.adjusted) →
      ∀ x ∈ roomsOf (allocLoop mode ctx fuel pool remaining rolls acc).1,
        0 ≤ x.adjusted := by
  intro fuel
  induction fuel with
  | zero =>
    intro pool remaining rolls acc hpool
    simpa [allocLoop] using hpool
  | succ n ih =>
    intro pool remaining rolls acc hpool
    rw [allocLoop]
    by_cases h0 : remaining = 0
    · rw [if_pos h0]
      exact hpool
    · rw [if_neg h0]
      cases hs : allocStep mode ctx pool remaining rolls with
      | stop p =>
        have hp : p = pool := allocStep_stop_spec hs
        exact hp ▸ hpool
      | skip p =>
        obtain ⟨f, room, hf, hmem, hsta, hp⟩ := allocStep_skip_spec hs
        refine ih p remaining rolls acc ?_
        intro x hx
        rw [hp] at hx
        exact hpool x (mem_roomsOf_eraseRoom hx)
      | alloc p newRec actual =>
        obtain ⟨f, room, hf, hmem, hsta, hact, hpool2, hrec⟩ := allocStep_alloc_spec hs
        refine ih p (remaining - actual) (rolls.drop actual) (acc ++ [newRec]) ?_
        intro x hx
        rw [hpool2] at hx
        rcases mem_roomsOf_updatePool hx with hin | hin
        · exact hpool x hin
        · subst hin
          show 0 ≤ room.adjusted - (actual : Int)
          have hro : 0 ≤ room.adjusted := hpool room (mem_lookupFloor_roomsOf hmem)
          have hactle : (actual : Int) ≤ min (remaining : Int) (stepCap mode room.adjusted) := by
            rw [hact, List.length_take]
            omega
          cases mode with
          | dense => simp only [stepCap] at hactle; omega
          | sparse => simp only [stepCap] at hactle; omega

end Seating

namespace Seating

/-- C2: conservation for one subject in one session group. The per-subject
loop satisfies: emitted seats plus remaining students equal the enrollment
count; hence when it ends with zero remaining the records sum exactly to
the enrollment, and when it ends with a positive remainder (the logged
shortfall) the sum is strictly smaller and the shortfall is the enrollment
minus the sum. -/
theorem conservation :
    ∀ (mode : Mode) (ctx : Ctx) (pool : Pool) (rolls : List String),
      sumCounts (allocate_subject_rooms mode ctx pool rolls).2.1 +
          (allocate_subject_rooms mode ctx pool rolls).2.2 = rolls.length ∧
        (0 < (allocate_subject_rooms mode ctx pool rolls).2.2 →
          sumCounts (allocate_subject_rooms mode ctx pool rolls).2.1 < rolls.length ∧
            rolls.length - sumCounts (allocate_subject_rooms mode ctx pool rolls).2.1 =
              (allocate_subject_rooms mode ctx pool rolls).2.2) := by
  intro mode ctx pool rolls
  have h := allocLoop_sum mode ctx 100 pool rolls.length rolls [] rfl
  have hz : sumCounts ([] : List AllocationRecord) = 0 := rfl
  rw [hz] at h
  unfold allocate_subject_rooms
  omega

/-- C2 witness: the sparse single-room scenario ends with a deficit of 1,
and the nine seated students are the enrollment minus the shortfall. -/
theorem conservation_witness :
    sumCounts runC6.2.1 < rolls10.length ∧
      rolls10.length - sumCounts runC6.2.1 = runC6.2.2 :=
  (conservation Mode.sparse ctxC6 (buildPool 0 room10) rolls10).2 (by decide)

/-- C9: every emitted record seats at least one student and its count
equals the length of its roll list; and an iteration whose computed
allocation is at most 0 emits nothing and strictly shrinks the pool by
removing the selected room. -/
theorem record_positivity :
    (∀ (mode : Mode) (ctx : Ctx) (pool : Pool) (rolls : List String)
        (record : AllocationRecord),
        record ∈ (allocate_subject_rooms mode ctx pool rolls).2.1 →
          1 ≤ record.allocated_student_count ∧
            record.allocated_student_count = record.roll_list.length) ∧
      (∀ (mode : Mode) (ctx : Ctx) (pool : Pool) (remaining : Nat)
          (rolls : List String) (pool2 : Pool),
          allocStep mode ctx pool remaining rolls = StepResult.skip pool2 →
            totalRooms pool2 < totalRooms pool) := by
  constructor
  · intro mode ctx pool rolls record hmem
    have h := allocLoop_records mode ctx 100 pool rolls.length rolls [] rfl
      (by intro rec0 h0; cases h0) record hmem
    exact ⟨h.1, h.2.1⟩
  · intro mode ctx pool remaining rolls pool2 hs
    obtain ⟨f, room, hf, hmem, hsta, hp⟩ := allocStep_skip_spec hs
    rw [hp]
    exact totalRooms_eraseRoom_lt hmem

/-- C9 witness: the dense one-student run emits the single record recOne
with count 1 equal to its roll list length; and the sparse step on a pool
whose only room has one seat (cap 0) skips and leaves an empty floor. -/
theorem record_positivity_witness :
    (1 ≤ recOne.allocated_student_count ∧
        recOne.allocated_student_count = recOne.roll_list.length) ∧
      totalRooms [("1", [])] < totalRooms poolSkip :=
  ⟨record_positivity.1 Mode.dense ctx1 (buildPool 1 rooms1) ["r1"] recOne (by decide),
   record_positivity.2 Mode.sparse ctx1 poolSkip 1 ["r1"] [("1", [])] (by decide)⟩

/-- C10: no step seats more students in a room than its remaining capacity:
every record allocates at most the positive part of the capacity recorded
at emission time (its pre-decrement remaining capacity), and a pool whose
rooms all have non-negative remaining capacity keeps that invariant through
a whole per-subject run, rooms reaching 0 being removed rather than going
negative. -/
theorem no_overallocation :
    (∀ (mode : Mode) (ctx : Ctx) (pool : Pool) (rolls : List String)
        (record : AllocationRecord),
        record ∈ (allocate_subject_rooms mode ctx pool rolls).2.1 →
          (record.allocated_student_count : Int) ≤ max record.adjusted_capacity 0) ∧
      (∀ (mode : Mode) (ctx : Ctx) (pool : Pool) (rolls : List String)
          (r : Room),
          (∀ x ∈ roomsOf pool, 0 ≤ x.adjusted) →
          r ∈ roomsOf (allocate_subject_rooms mode ctx pool rolls).1 →
            0 ≤ r.adjusted) := by
  constructor
  · intro mode ctx pool rolls record hmem
    exact (allocLoop_records mode ctx 100 pool rolls.length rolls [] rfl
      (by intro rec0 h0; cases h0) record hmem).2.2.1
  · intro mode ctx pool rolls r hpool hmem
    exact allocLoop_nonneg mode ctx 100 pool rolls.length rolls [] hpool r hmem

/-- C10 witness: in the dense one-student run the emitted record seats 1 of
an adjusted capacity of 2, and the room left in the pool still has a
non-negative (namely 1) remaining capacity. -/
theorem no_overallocation_witness :
    ((recOne.allocated_student_count : Int) ≤ max recOne.adjusted_capacity 0) ∧
      0 ≤ roomOneLeft.adjusted :=
  ⟨no_overallocation.1 Mode.dense ctx1 (buildPool 1 rooms1) ["r1"] recOne (by decide),
   no_overallocation.2 Mode.dense ctx1 (buildPool 1 rooms1) ["r1"] roomOneLeft
     (by decide) (by decide)⟩

end Seating

namespace Seating

/-! Characterization of the floor selection fallback scan. -/

theorem le_foldlMax :
    ∀ (pool : Pool) (b : Int),
      b ≤ pool.foldl (fun m e => max m (floorTotal e.2)) b := by
  intro pool
  induction pool with
  | nil => intro b; simp
  | cons e rest ih =>
    intro b
    rw [List.foldl_cons]
    exact le_trans (le_max_left _ _) (ih _)

theorem fallbackFloor_eq :
    ∀ (pool : Pool) (cur : Int) (best : Option String),
      fallbackFloor pool cur best =
        if cur < pool.foldl (fun m e => max m (floorTotal e.2)) cur then
          (pool.find? (fun e =>
            decide (pool.foldl (fun m e2 => max m (floorTotal e2.2)) cur ≤
              floorTotal e.2))).map (·.1)
        else best := by
  intro pool
  induction pool with
  | nil =>
    intro cur best
    simp [fallbackFloor]
  | cons e rest ih =>
    intro cur best
    obtain ⟨f, rs⟩ := e
    rw [List.foldl_cons]
    by_cases hc : cur < floorTotal rs
    · have hmax : max cur (floorTotal rs) = floorTotal rs := max_eq_right (le_of_lt hc)
      rw [hmax]
      have hM : floorTotal rs ≤ rest.foldl (fun m e2 => max m (floorTotal e2.2)) (floorTotal rs) :=
        le_foldlMax rest (floorTotal rs)
      have hcM : cur < rest.foldl (fun m e2 => max m (floorTotal e2.2)) (floorTotal rs) :=
        lt_of_lt_of_le hc hM
      rw [show fallbackFloor ((f, rs) :: rest) cur best =
            fallbackFloor rest (floorTotal rs) (some f) by
          simp [fallbackFloor, hc]]
      rw [ih (floorTotal rs) (some f)]
      rw [if_pos hcM]
      by_cases hhead : rest.foldl (fun m e2 => max m (floorTotal e2.2)) (floorTotal rs) ≤ floorTotal rs
      · rw [List.find?_cons_of_pos _ (by simpa using hhead)]
        rw [if_neg (by omega)]
        rfl
      · rw [List.find?_cons_of_neg _ (by simpa using hhead)]
        rw [if_pos (by omega)]
    · have hmax : max cur (floorTotal rs) = cur := max_eq_left (by omega)
      rw [hmax]
      rw [show fallbackFloor ((f, rs) :: rest) cur best =
            fallbackFloor rest cur best by
          simp [fallbackFloor, hc]]
      rw [ih cur best]
      by_cases hcM : cur < rest.foldl (fun m e2 => max m (floorTotal e2.2)) cur
      · rw [if_pos hcM, if_pos hcM]
        have hhead : ¬ (rest.foldl (fun m e2 => max m (floorTotal e2.2)) cur ≤ floorTotal rs) := by
          omega
        rw [List.find?_cons_of_neg _ (by simpa using hhead)]
      · rw [if_neg hcM, if_neg hcM]

/-- C5 amended: select_best_floor scans the floors in pool insertion order
(not ascending floor key): it returns the first floor with a non-empty room
list whose total remaining capacity covers the remaining students; if none
qualifies, it returns the first floor whose total attains the maximum of
all floor totals, provided that maximum is positive, and none otherwise. -/
theorem floor_selection_amended :
    ∀ (pool : Pool) (remaining : Int),
      select_best_floor pool remaining =
        match pool.find? (fun e => !e.2.isEmpty && decide (remaining ≤ floorTotal e.2)) with
        | some e => some e.1
        | none =>
          if 0 < pool.foldl (fun m e => max m (floorTotal e.2)) 0 then
            (pool.find? (fun e =>
              decide (pool.foldl (fun m e2 => max m (floorTotal e2.2)) 0 ≤
                floorTotal e.2))).map (·.1)
          else none := by
  intro pool remaining
  unfold select_best_floor
  cases hfind : pool.find? (fun e => !e.2.isEmpty && decide (remaining ≤ floorTotal e.2)) with
  | some e => rfl
  | none => exact fallbackFloor_eq pool 0 none

end Seating

namespace Seating

/-! Lemmas about first-seen deduplication, pair enumeration and clash
detection. -/

theorem dedupAux_mem {α : Type} [DecidableEq α] :
    ∀ (l acc : List α) (x : α), x ∈ dedupAux l acc ↔ x ∈ acc ∨ x ∈ l := by
  intro l
  induction l with
  | nil => intro acc x; simp [dedupAux]
  | cons y ys ih =>
    intro acc x
    simp only [dedupAux]
    by_cases hy : y ∈ acc
    · rw [if_pos hy, ih]
      constructor
      · rintro (h | h)
        · exact Or.inl h
        · exact Or.inr (List.mem_cons_of_mem _ h)
      · rintro (h | h)
        · exact Or.inl h
        · rcases List.mem_cons.mp h with h1 | h1
          · exact Or.inl (h1 ▸ hy)
          · exact Or.inr h1
    · rw [if_neg hy, ih]
      simp only [List.mem_append, List.mem_singleton, List.mem_cons]
      tauto

theorem mem_dedupKeepFirst {α : Type} [DecidableEq α] (l : List α) (x : α) :
    x ∈ dedupKeepFirst l ↔ x ∈ l := by
  unfold dedupKeepFirst
  rw [dedupAux_mem]
  simp

theorem dedupAux_nodup {α : Type} [DecidableEq α] :
    ∀ (l acc : List α), acc.Nodup → (dedupAux l acc).Nodup := by
  intro l
  induction l with
  | nil => intro acc h; simpa [dedupAux] using h
  | cons y ys ih =>
    intro acc h
    simp only [dedupAux]
    by_cases hy : y ∈ acc
    · rw [if_pos hy]
      exact ih acc h
    · rw [if_neg hy]
      exact ih _ (((List.perm_append_singleton y acc).symm).nodup
        (List.nodup_cons.mpr ⟨hy, h⟩))

theorem nodup_dedupKeepFirst {α : Type} [DecidableEq α] (l : List α) :
    (dedupKeepFirst l).Nodup :=
  dedupAux_nodup l [] List.nodup_nil

theorem nodup_groupKeys (schedule : List ExamSlot) : (groupKeys schedule).Nodup :=
  ((List.perm_insertionSort keyLe _).symm).nodup (nodup_dedupKeepFirst _)

theorem pairsOf_mem :
    ∀ {l : List String} {p : String × String},
      p ∈ pairsOf l → p.1 ∈ l ∧ p.2 ∈ l := by
  intro l
  induction l with
  | nil => intro p h; simp [pairsOf] at h
  | cons x xs ih =>
    intro p h
    simp only [pairsOf] at h
    rcases List.mem_append.mp h with h1 | h1
    · rcases List.mem_map.mp h1 with ⟨y, hy, hp⟩
      cases hp
      exact ⟨List.mem_cons_self _ _, List.mem_cons_of_mem _ hy⟩
    · have h2 := ih h1
      exact ⟨List.mem_cons_of_mem _ h2.1, List.mem_cons_of_mem _ h2.2⟩

theorem countP_singleton_of_nodup {α : Type} [DecidableEq α] :
    ∀ {xs : List α}, xs.Nodup → ∀ {b : α}, b ∈ xs →
      xs.countP (fun y => decide (y = b)) = 1 := by
  intro xs
  induction xs with
  | nil => intro _ b hb; cases hb
  | cons x xs ih =>
    intro h b hb
    rcases List.nodup_cons.mp h with ⟨hx, hxs⟩
    rw [List.countP_cons]
    by_cases hxb : x = b
    · subst hxb
      have h0 : xs.countP (fun y => decide (y = x)) = 0 :=
        List.countP_eq_zero.mpr
          (by intro a ha hpa; simp only [decide_eq_true_eq] at hpa; exact hx (hpa ▸ ha))
      simp [h0]
    · rcases List.mem_cons.mp hb with h1 | h1
      · exact absurd h1.symm hxb
      · simp [hxb, ih hxs h1]

theorem countP_pairsOf (a b : String) :
    ∀ {l : List String}, l.Nodup → a ∈ l → b ∈ l → a ≠ b →
      (pairsOf l).countP
        (fun p => decide (p = (a, b)) || decide (p = (b, a))) = 1 := by
  intro l
  induction l with
  | nil => intro _ ha; cases ha
  | cons x xs ih =>
    intro hn ha hb hab
    rcases List.nodup_cons.mp hn with ⟨hx, hxs⟩
    simp only [pairsOf]
    rw [List.countP_append, List.countP_map]
    simp only [Function.comp_def]
    by_cases hax : a = x
    · have hbxs : b ∈ xs := by
        rcases List.mem_cons.mp hb with h1 | h1
        · exact absurd (h1.trans hax.symm).symm hab
        · exact h1
      have h1 : xs.countP
          (fun y => decide ((x, y) = (a, b)) || decide ((x, y) = (b, a))) = 1 := by
        rw [List.countP_congr]
        · exact countP_singleton_of_nodup hxs hbxs
        · intro y hy
          simp only [Bool.or_eq_true, decide_eq_true_eq, Prod.mk.injEq]
          constructor
          · rintro (⟨-, h2⟩ | ⟨h2, -⟩)
            · exact h2
            · exact absurd (hax.trans h2) hab
          · intro h2
            exact Or.inl ⟨hax.symm, h2⟩
      have h2 : (pairsOf xs).countP
          (fun p => decide (p = (a, b)) || decide (p = (b, a))) = 0 := by
        apply List.countP_eq_zero.mpr
        intro p hp hpred
        have hm := pairsOf_mem hp
        simp only [Bool.or_eq_true, decide_eq_true_eq] at hpred
        rcases hpred with h3 | h3 <;> subst h3
        · exact hx (hax ▸ hm.1)
        · exact hx (hax ▸ hm.2)
      rw [h1, h2]
    · by_cases hbx : b = x
      · have haxs : a ∈ xs := by
          rcases List.mem_cons.mp ha with h1 | h1
          · exact absurd h1 hax
          · exact h1
        have h1 : xs.countP
            (fun y => decide ((x, y) = (a, b)) || decide ((x, y) = (b, a))) = 1 := by
          rw [List.countP_congr]
          · exact countP_singleton_of_nodup hxs haxs
          · intro y hy
            simp only [Bool.or_eq_true, decide_eq_true_eq, Prod.mk.injEq]
            constructor
            · rintro (⟨h2, -⟩ | ⟨-, h2⟩)
              · exact absurd (hbx.trans h2).symm hab
              · exact h2
            · intro h2
              exact Or.inr ⟨hbx.symm, h2⟩
        have h2 : (pairsOf xs).countP
            (fun p => decide (p = (a, b)) || decide (p = (b, a))) = 0 := by
          apply List.countP_eq_zero.mpr
          intro p hp hpred
          have hm := pairsOf_mem hp
          simp only [Bool.or_eq_true, decide_eq_true_eq] at hpred
          rcases hpred with h3 | h3 <;> subst h3
          · exact hx (hbx ▸ hm.2)
          · exact hx (hbx ▸ hm.1)
        rw [h1, h2]
      · have haxs : a ∈ xs := (List.mem_cons.mp ha).resolve_left hax
        have hbxs : b ∈ xs := (List.mem_cons.mp hb).resolve_left hbx
        have h1 : xs.countP
            (fun y => decide ((x, y) = (a, b)) || decide ((x, y) = (b, a))) = 0 := by
          apply List.countP_eq_zero.mpr
          intro y hy hpred
          simp only [Bool.or_eq_true, decide_eq_true_eq, Prod.mk.injEq] at hpred
          rcases hpred with ⟨h2, -⟩ | ⟨h2, -⟩
          · exact hax h2.symm
          · exact hbx h2.symm
        rw [h1, ih hxs haxs hbxs hab]

theorem pairClash_some_spec {setOrder : List String → List String}
    {roster : List (String × String)} {k : String × String × String}
    {p : String × String} {c : Clash}
    (h : pairClash setOrder roster k p = some c) :
    c.date = k.1 ∧ c.day = k.2.1 ∧ c.session = k.2.2 ∧
      c.subjects = [p.1, p.2] ∧
      c.roll_numbers = setOrder ((get_rolls_for_subject roster p.1).filter
        (fun s => decide (s ∈ get_rolls_for_subject roster p.2))) ∧
      ((get_rolls_for_subject roster p.1).filter
        (fun s => decide (s ∈ get_rolls_for_subject roster p.2))).isEmpty = false := by
  simp only [pairClash] at h
  cases hE : ((get_rolls_for_subject roster p.1).filter
      (fun s => decide (s ∈ get_rolls_for_subject roster p.2))).isEmpty with
  | true => rw [hE] at h; simp at h
  | false =>
    rw [hE] at h
    simp only [if_neg Bool.false_ne_true] at h
    cases h
    exact ⟨rfl, rfl, rfl, rfl, rfl, rfl⟩

theorem countP_filterMap_pairClash (setOrder : List String → List String)
    (roster : List (String × String)) (k : String × String × String)
    (a b : String) :
    ∀ ps : List (String × String),
      (ps.filterMap (pairClash setOrder roster k)).countP
        (fun c => decide (c.subjects = [a, b]) || decide (c.subjects = [b, a])) =
      ps.countP (fun p =>
        (decide (p = (a, b)) || decide (p = (b, a))) &&
        !((get_rolls_for_subject roster p.1).filter
            (fun s => decide (s ∈ get_rolls_for_subject roster p.2))).isEmpty) := by
  intro ps
  induction ps with
  | nil => rfl
  | cons p ps ih =>
    obtain ⟨p1, p2⟩ := p
    cases hE : ((get_rolls_for_subject roster p1).filter
        (fun s => decide (s ∈ get_rolls_for_subject roster p2))).isEmpty with
    | true =>
      have hnone : pairClash setOrder roster k (p1, p2) = none := by
        simp [pairClash, hE]
      rw [List.filterMap_cons_none hnone, List.countP_cons, ih]
      dsimp only
      rw [hE]
      simp
    | false =>
      have hsome : pairClash setOrder roster k (p1, p2) =
          some { date := k.1, day := k.2.1, session := k.2.2,
                 subjects := [p1, p2],
                 roll_numbers := setOrder ((get_rolls_for_subject roster p1).filter
                   (fun s => decide (s ∈ get_rolls_for_subject roster p2))) } := by
        simp [pairClash, hE]
      rw [List.filterMap_cons_some hsome, List.countP_cons, List.countP_cons, ih]
      have h1 : (decide ([p1, p2] = [a, b])) = (decide ((p1, p2) = (a, b))) :=
        decide_eq_decide.mpr (by simp [Prod.mk.injEq])
      have h2 : (decide ([p1, p2] = [b, a])) = (decide ((p1, p2) = (b, a))) :=
        decide_eq_decide.mpr (by simp [Prod.mk.injEq])
      dsimp only
      rw [hE, h1, h2]
      simp

theorem countP_flatMap_byKey (g : (String × String × String) → List Clash)
    (hkey : ∀ k2 c, c ∈ g k2 → (c.date, c.day, c.session) = k2)
    (Q : Clash → Bool) :
    ∀ (ks : List (String × String × String)), ks.Nodup →
      ∀ k, k ∈ ks →
      (ks.flatMap g).countP
          (fun c => decide ((c.date, c.day, c.session) = k) && Q c) =
        (g k).countP Q := by
  intro ks
  induction ks with
  | nil => intro _ k hk; cases hk
  | cons k2 ks ih =>
    intro hn k hk
    rcases List.nodup_cons.mp hn with ⟨hk2, hns⟩
    rw [List.flatMap_cons, List.countP_append]
    by_cases hkk : k2 = k
    · subst hkk
      have htail : (ks.flatMap g).countP
          (fun c => decide ((c.date, c.day, c.session) = k2) && Q c) = 0 := by
        apply List.countP_eq_zero.mpr
        intro c hc hpred
        rcases List.mem_flatMap.mp hc with ⟨k3, hk3, hcg⟩
        simp only [Bool.and_eq_true, decide_eq_true_eq] at hpred
        have hck := hkey k3 c hcg
        exact hk2 ((hck.symm.trans hpred.1) ▸ hk3)
      have hhead : (g k2).countP
          (fun c => decide ((c.date, c.day, c.session) = k2) && Q c) =
          (g k2).countP Q := by
        apply List.countP_congr
        intro c hc
        simp [hkey k2 c hc]
      rw [htail, hhead]
      omega
    · have hhead : (g k2).countP
          (fun c => decide ((c.date, c.day, c.session) = k) && Q c) = 0 := by
        apply List.countP_eq_zero.mpr
        intro c hc hpred
        simp only [Bool.and_eq_true, decide_eq_true_eq] at hpred
        exact hkk ((hkey k2 c hc).symm.trans hpred.1)
      have hkks : k ∈ ks := (List.mem_cons.mp hk).resolve_left (fun h => hkk h.symm)
      rw [hhead, ih hns k hkks]
      omega

theorem mem_groupClashes_key {setOrder : List String → List String}
    {roster : List (String × String)} {k : String × String × String}
    {subjects : List String} {c : Clash}
    (hc : c ∈ groupClashes setOrder roster k subjects) :
    (c.date, c.day, c.session) = k := by
  rcases List.mem_filterMap.mp hc with ⟨p, hp, hpc⟩
  have h := pairClash_some_spec hpc
  rw [h.1, h.2.1, h.2.2.1]

end Seating

namespace Seating

theorem filter_isEmpty_false_iff (roster : List (String × String)) (u v : String) :
    ((get_rolls_for_subject roster u).filter
        (fun s => decide (s ∈ get_rolls_for_subject roster v))).isEmpty = false ↔
      ∃ x, x ∈ get_rolls_for_subject roster u ∧
        x ∈ get_rolls_for_subject roster v := by
  rw [List.isEmpty_eq_false_iff_exists_mem]
  simp [List.mem_filter]

/-- C3 amended: clash detection is complete and exact for the groups the
code actually forms, which are keyed by date, day and session (two slots
sharing date and session but with different day values are never compared).
For every such group and every two distinct subjects of the group, the
clash list holds exactly one record for that unordered pair when their
rosters intersect and none otherwise; every clash record for a pair holds
exactly the intersection of the two rosters (as a set, in the order chosen
by the set enumeration); and detect_clashes returns true exactly when the
clash list is empty. -/
theorem clash_completeness_amended :
    ∀ (setOrder : List String → List String) (schedule : List ExamSlot)
      (roster : List (String × String)),
      (∀ l, List.Perm (setOrder l) l) →
      (∀ k, k ∈ groupKeys schedule →
        ∀ a b : String,
          a ∈ groupSubjects schedule k → b ∈ groupSubjects schedule k → a ≠ b →
          (detect_clashes setOrder schedule roster).1.countP
              (fun c => decide ((c.date, c.day, c.session) = k) &&
                (decide (c.subjects = [a, b]) || decide (c.subjects = [b, a]))) =
            (if ∃ x, x ∈ get_rolls_for_subject roster a ∧
                x ∈ get_rolls_for_subject roster b then 1 else 0)) ∧
      (∀ (c : Clash), c ∈ (detect_clashes setOrder schedule roster).1 →
        ∀ a b : String, (c.subjects = [a, b] ∨ c.subjects = [b, a]) →
        ∀ x : String, x ∈ c.roll_numbers ↔
          (x ∈ get_rolls_for_subject roster a ∧
            x ∈ get_rolls_for_subject roster b)) ∧
      ((detect_clashes setOrder schedule roster).2 = true ↔
        (detect_clashes setOrder schedule roster).1 = []) := by
  intro setOrder schedule roster hperm
  refine ⟨?_, ?_, ?_⟩
  · intro k hk a b ha hb hab
    show ((groupKeys schedule).flatMap
        (fun k2 => groupClashes setOrder roster k2 (groupSubjects schedule k2))).countP
        _ = _
    rw [countP_flatMap_byKey
      (fun k2 => groupClashes setOrder roster k2 (groupSubjects schedule k2))
      (fun k2 c hc => mem_groupClashes_key hc) _ (groupKeys schedule)
      (nodup_groupKeys schedule) k hk]
    show ((pairsOf (groupSubjects schedule k)).filterMap
        (pairClash setOrder roster k)).countP _ = _
    rw [countP_filterMap_pairClash setOrder roster k a b
      (pairsOf (groupSubjects schedule k))]
    by_cases hsh : ∃ x, x ∈ get_rolls_for_subject roster a ∧
        x ∈ get_rolls_for_subject roster b
    · rw [if_pos hsh]
      rw [List.countP_congr ?_]
      · exact countP_pairsOf a b (nodup_dedupKeepFirst _) ha hb hab
      · intro p hp
        simp only [Bool.and_eq_true, Bool.or_eq_true, decide_eq_true_eq,
          Bool.not_eq_true']
        constructor
        · rintro ⟨h1, -⟩
          exact h1
        · rintro (h1 | h1) <;> subst h1
          · exact ⟨Or.inl rfl, (filter_isEmpty_false_iff roster a b).mpr hsh⟩
          · refine ⟨Or.inr rfl, (filter_isEmpty_false_iff roster b a).mpr ?_⟩
            rcases hsh with ⟨x, h2, h3⟩
            exact ⟨x, h3, h2⟩
    · rw [if_neg hsh]
      apply List.countP_eq_zero.mpr
      intro p hp hpred
      simp only [Bool.and_eq_true, Bool.or_eq_true, decide_eq_true_eq,
        Bool.not_eq_true'] at hpred
      rcases hpred with ⟨h1 | h1, h2⟩ <;> subst h1
      · exact hsh ((filter_isEmpty_false_iff roster a b).mp h2)
      · rcases (filter_isEmpty_false_iff roster b a).mp h2 with ⟨x, h3, h4⟩
        exact hsh ⟨x, h4, h3⟩
  · intro c hc a b hsub x
    rcases List.mem_flatMap.mp hc with ⟨k2, hk2, hcg⟩
    rcases List.mem_filterMap.mp hcg with ⟨p, hp, hpc⟩
    obtain ⟨p1, p2⟩ := p
    have hspec := pairClash_some_spec hpc
    rw [hspec.2.2.2.2.1, (hperm _).mem_iff]
    rcases hsub with hs | hs
    · have hps : p1 = a ∧ p2 = b := by
        have h2 := hspec.2.2.2.1.symm.trans hs
        simpa using h2
      obtain ⟨hp1, hp2⟩ := hps
      subst hp1
      subst hp2
      simp [List.mem_filter]
    · have hps : p1 = b ∧ p2 = a := by
        have h2 := hspec.2.2.2.1.symm.trans hs
        simpa using h2
      obtain ⟨hp1, hp2⟩ := hps
      subst hp1
      subst hp2
      simp only [List.mem_filter, decide_eq_true_eq]
      exact ⟨fun h => ⟨h.2, h.1⟩, fun h => ⟨h.2, h.1⟩⟩
  · show ((groupKeys schedule).flatMap
        (fun k2 => groupClashes setOrder roster k2 (groupSubjects schedule k2))).isEmpty =
        true ↔
      ((groupKeys schedule).flatMap
        (fun k2 => groupClashes setOrder roster k2 (groupSubjects schedule k2))) = []
    exact List.isEmpty_iff

/-- C3 witness: on the two-subject one-group input, the clash list holds
exactly one record for the pair A, B, matching the non-empty roster
intersection. -/
theorem clash_completeness_witness :
    (detect_clashes (fun l => l) schedPair rosterPair).1.countP
        (fun c => decide ((c.date, c.day, c.session) = ("d", "Mon", "morning")) &&
          (decide (c.subjects = ["A", "B"]) || decide (c.subjects = ["B", "A"]))) =
      (if ∃ x, x ∈ get_rolls_for_subject rosterPair "A" ∧
          x ∈ get_rolls_for_subject rosterPair "B" then 1 else 0) :=
  (clash_completeness_amended (fun l => l) schedPair rosterPair
      (fun l => List.Perm.refl l)).1 ("d", "Mon", "morning") (by decide) "A" "B"
    (by decide) (by decide) (by decide)

end Seating

namespace Seating

/-! Permutation lemmas describing the effect of one pool update. -/

theorem replaceFirst_perm {rs : List Room} {rm r2 : Room} (h : rm ∈ rs) :
    List.Perm (replaceFirst rs rm r2) (r2 :: rs.erase rm) := by
  induction rs with
  | nil => cases h
  | cons x xs ih =>
    simp only [replaceFirst]
    by_cases hx : x = rm
    · rw [if_pos hx]
      subst hx
      rw [List.erase_cons_head]
    · rw [if_neg hx]
      rw [List.erase_cons_tail (by simpa using hx)]
      have hmem : rm ∈ xs := by
        rcases List.mem_cons.mp h with h1 | h1
        · exact absurd h1.symm hx
        · exact h1
      exact ((ih hmem).cons x).trans (List.Perm.swap _ _ _)

theorem updateFloor_perm {rs : List Room} {rm : Room} {c : Nat} (h : rm ∈ rs) :
    List.Perm (updateFloor rs rm c)
      ((if (decRoom rm c).adjusted ≤ 0 then [] else [decRoom rm c]) ++ rs.erase rm) := by
  simp only [updateFloor]
  by_cases h0 : (decRoom rm c).adjusted ≤ 0
  · rw [if_pos h0, if_pos h0]
    have hp := (@replaceFirst_perm rs rm (decRoom rm c) h).erase (decRoom rm c)
    rw [List.erase_cons_head] at hp
    simpa using hp
  · rw [if_neg h0, if_neg h0]
    exact (List.perm_insertionSort _ _).trans (replaceFirst_perm h)

theorem updatePool_keys (pool : Pool) (f : String) (r : Room) (c : Nat) :
    (updatePool pool f r c).map Prod.fst = pool.map Prod.fst := by
  induction pool with
  | nil => rfl
  | cons e rest ih =>
    rw [updatePool_cons, List.map_cons, List.map_cons, ih]
    by_cases hf : e.1 = f
    · rw [if_pos hf]
    · rw [if_neg hf]

theorem eraseRoom_keys (pool : Pool) (f : String) (r : Room) :
    (eraseRoom pool f r).map Prod.fst = pool.map Prod.fst := by
  induction pool with
  | nil => rfl
  | cons e rest ih =>
    rw [eraseRoom_cons, List.map_cons, List.map_cons, ih]
    by_cases hf : e.1 = f
    · rw [if_pos hf]
    · rw [if_neg hf]

theorem updatePool_of_not_key {pool : Pool} {f : String} (r : Room) (c : Nat)
    (h : ∀ e ∈ pool, e.1 ≠ f) : updatePool pool f r c = pool := by
  induction pool with
  | nil => rfl
  | cons e rest ih =>
    rw [updatePool_cons, if_neg (h e (List.mem_cons_self _ _)),
      ih (fun e2 he2 => h e2 (List.mem_cons_of_mem _ he2))]

theorem eraseRoom_of_not_key {pool : Pool} {f : String} (r : Room)
    (h : ∀ e ∈ pool, e.1 ≠ f) : eraseRoom pool f r = pool := by
  induction pool with
  | nil => rfl
  | cons e rest ih =>
    rw [eraseRoom_cons, if_neg (h e (List.mem_cons_self _ _)),
      ih (fun e2 he2 => h e2 (List.mem_cons_of_mem _ he2))]

theorem not_key_of_nodup {e : String × List Room} {rest : Pool}
    (h : (e.1 :: rest.map Prod.fst).Nodup) (f : String) (hk : e.1 = f) :
    ∀ e2 ∈ rest, e2.1 ≠ f := by
  intro e2 he2 heq
  rcases List.nodup_cons.mp h with ⟨hnk, -⟩
  exact hnk (hk ▸ heq ▸ List.mem_map_of_mem Prod.fst he2)

theorem roomsOf_updatePool_perm {pool : Pool} {f : String} {rm : Room} {c : Nat}
    (hkeys : (pool.map Prod.fst).Nodup) (hmem : rm ∈ lookupFloor pool f) :
    ∃ other : List Room,
      List.Perm (roomsOf pool) (rm :: other) ∧
      List.Perm (roomsOf (updatePool pool f rm c))
        ((if (decRoom rm c).adjusted ≤ 0 then [] else [decRoom rm c]) ++ other) := by
  induction pool with
  | nil => rw [lookupFloor_nil] at hmem; cases hmem
  | cons e rest ih =>
    rw [List.map_cons] at hkeys
    rw [lookupFloor_cons] at hmem
    by_cases hk : e.1 = f
    · rw [if_pos hk] at hmem
      refine ⟨e.2.erase rm ++ roomsOf rest, ?_, ?_⟩
      · rw [roomsOf_cons]
        exact (List.perm_cons_erase hmem).append_right _
      · rw [updatePool_cons, if_pos hk, roomsOf_cons]
        rw [updatePool_of_not_key rm c (not_key_of_nodup hkeys f hk)]
        rw [← List.append_assoc]
        exact (updateFloor_perm hmem).append_right _
    · rw [if_neg hk] at hmem
      rcases ih (List.nodup_cons.mp hkeys).2 hmem with ⟨other, hp1, hp2⟩
      refine ⟨e.2 ++ other, ?_, ?_⟩
      · rw [roomsOf_cons]
        exact (hp1.append_left e.2).trans List.perm_middle
      · rw [updatePool_cons, if_neg hk, roomsOf_cons]
        exact (hp2.append_left e.2).trans (List.perm_append_comm_assoc _ _ _)

theorem roomsOf_eraseRoom_perm {pool : Pool} {f : String} {rm : Room}
    (hkeys : (pool.map Prod.fst).Nodup) (hmem : rm ∈ lookupFloor pool f) :
    ∃ other : List Room,
      List.Perm (roomsOf pool) (rm :: other) ∧
      List.Perm (roomsOf (eraseRoom pool f rm)) other := by
  induction pool with
  | nil => rw [lookupFloor_nil] at hmem; cases hmem
  | cons e rest ih =>
    rw [List.map_cons] at hkeys
    rw [lookupFloor_cons] at hmem
    by_cases hk : e.1 = f
    · rw [if_pos hk] at hmem
      refine ⟨e.2.erase rm ++ roomsOf rest, ?_, ?_⟩
      · rw [roomsOf_cons]
        exact (List.perm_cons_erase hmem).append_right _
      · rw [eraseRoom_cons, if_pos hk, roomsOf_cons]
        rw [eraseRoom_of_not_key rm (not_key_of_nodup hkeys f hk)]
    · rw [if_neg hk] at hmem
      rcases ih (List.nodup_cons.mp hkeys).2 hmem with ⟨other, hp1, hp2⟩
      refine ⟨e.2 ++ other, ?_, ?_⟩
      · rw [roomsOf_cons]
        exact (hp1.append_left e.2).trans List.perm_middle
      · rw [eraseRoom_cons, if_neg hk, roomsOf_cons]
        exact hp2.append_left e.2

/-! Aggregates over room lists: counts and remaining capacities per room
number, and granted seats per room number. -/

theorem countFor_nil (n : String) : countFor [] n = 0 := rfl

theorem countFor_cons (x : Room) (l : List Room) (n : String) :
    countFor (x :: l) n = (if x.roomNo = n then 1 else 0) + countFor l n := by
  simp only [countFor, List.filter_cons]
  by_cases hx : x.roomNo = n
  · simp only [hx, decide_true_eq_true, if_true]
    simp [Nat.add_comm]
  · simp [hx]

theorem countFor_append (l1 l2 : List Room) (n : String) :
    countFor (l1 ++ l2) n = countFor l1 n + countFor l2 n := by
  simp [countFor, List.filter_append]

theorem countFor_perm {l1 l2 : List Room} (h : List.Perm l1 l2) (n : String) :
    countFor l1 n = countFor l2 n := by
  simp only [countFor, ← List.countP_eq_length_filter]
  exact h.countP_eq _

theorem adjFor_nil (n : String) : adjFor [] n = 0 := rfl

theorem adjFor_cons (x : Room) (l : List Room) (n : String) :
    adjFor (x :: l) n = (if x.roomNo = n then x.adjusted else 0) + adjFor l n := by
  simp only [adjFor, List.filter_cons]
  by_cases hx : x.roomNo = n
  · simp [hx]
  · simp [hx]

theorem adjFor_append (l1 l2 : List Room) (n : String) :
    adjFor (l1 ++ l2) n = adjFor l1 n + adjFor l2 n := by
  simp [adjFor, List.filter_append]

theorem adjFor_perm {l1 l2 : List Room} (h : List.Perm l1 l2) (n : String) :
    adjFor l1 n = adjFor l2 n :=
  ((h.filter _).map _).sum_eq

theorem adjFor_eq_zero {l : List Room} {n : String} (h : countFor l n = 0) :
    adjFor l n = 0 := by
  have hnil : l.filter (fun r => decide (r.roomNo = n)) = [] :=
    List.length_eq_zero.mp h
  simp [adjFor, hnil]

theorem sumCountsFor_append_single (recs : List AllocationRecord)
    (rec : AllocationRecord) (n : String) :
    sumCountsFor (recs ++ [rec]) n =
      sumCountsFor recs n +
        (if rec.room = n then rec.allocated_student_count else 0) := by
  simp only [sumCountsFor, List.filter_append, List.map_append, List.sum_append]
  by_cases hx : rec.room = n
  · simp [List.filter_cons, hx]
  · simp [List.filter_cons, hx]

end Seating

namespace Seating

/-! Preservation of the pool invariant by the two pool-mutating steps. -/

theorem PoolInv_eraseRoom {mode : Mode} {B : String → Int} {pool : Pool}
    {recs : List AllocationRecord} {f : String} {rm : Room}
    (hinv : PoolInv mode B pool recs) (hmem : rm ∈ lookupFloor pool f) :
    PoolInv mode B (eraseRoom pool f rm) recs := by
  obtain ⟨hkeys, hcnt, hbound, hsparse⟩ := hinv
  obtain ⟨other, hp1, hp2⟩ := roomsOf_eraseRoom_perm hkeys hmem
  refine ⟨?_, ?_, ?_, hsparse⟩
  · rw [eraseRoom_keys]
    exact hkeys
  · intro n
    have h := hcnt n
    rw [countFor_perm hp1, countFor_cons] at h
    rw [countFor_perm hp2]
    by_cases hn : rm.roomNo = n
    · rw [if_pos hn] at h
      omega
    · rw [if_neg hn] at h
      omega
  · intro n
    have h := hbound n
    rw [adjFor_perm hp1, adjFor_cons] at h
    rw [adjFor_perm hp2]
    by_cases hn : rm.roomNo = n
    · have hcnt_other : countFor other n = 0 := by
        have h2 := hcnt n
        rw [countFor_perm hp1, countFor_cons, if_pos hn] at h2
        omega
      rw [adjFor_eq_zero hcnt_other] at h ⊢
      rw [if_pos hn] at h
      omega
    · rw [if_neg hn] at h
      omega

theorem PoolInv_updatePool {mode : Mode} {B : String → Int} {pool : Pool}
    {recs : List AllocationRecord} {f : String} {rm : Room} {actual : Nat}
    {record : AllocationRecord}
    (hinv : PoolInv mode B pool recs)
    (hmem : rm ∈ lookupFloor pool f)
    (hroom : record.room = rm.roomNo)
    (hcount : record.allocated_student_count = actual)
    (hcap : (actual : Int) ≤ stepCap mode rm.adjusted)
    (hcappos : 0 < stepCap mode rm.adjusted) :
    PoolInv mode B (updatePool pool f rm actual) (recs ++ [record]) := by
  obtain ⟨hkeys, hcnt, hbound, hsparse⟩ := hinv
  obtain ⟨other, hp1, hp2⟩ := @roomsOf_updatePool_perm pool f rm actual hkeys hmem
  have hadjpos : 0 < rm.adjusted := by
    cases mode <;> simp only [stepCap] at hcappos <;> omega
  have hactle : (actual : Int) ≤ rm.adjusted := by
    cases mode <;> simp only [stepCap] at hcap <;> omega
  have hcnt_other : countFor other rm.roomNo = 0 := by
    have h := hcnt rm.roomNo
    rw [countFor_perm hp1, countFor_cons, if_pos rfl] at h
    omega
  have hadj_other : adjFor other rm.roomNo = 0 := adjFor_eq_zero hcnt_other
  have hdec : (decRoom rm actual).adjusted = rm.adjusted - (actual : Int) := rfl
  have hdecn : (decRoom rm actual).roomNo = rm.roomNo := rfl
  refine ⟨?_, ?_, ?_, ?_⟩
  · rw [updatePool_keys]
    exact hkeys
  · intro n
    have h := hcnt n
    rw [countFor_perm hp1, countFor_cons] at h
    rw [countFor_perm hp2, countFor_append]
    by_cases h0 : (decRoom rm actual).adjusted ≤ 0
    · rw [if_pos h0, countFor_nil]
      omega
    · rw [if_neg h0, countFor_cons, countFor_nil, hdecn]
      omega
  · intro n
    have h := hbound n
    rw [adjFor_perm hp1, adjFor_cons] at h
    rw [adjFor_perm hp2, adjFor_append, sumCountsFor_append_single]
    push_cast
    by_cases hn : rm.roomNo = n
    · rw [if_pos hn] at h
      have hcnt_on : countFor other n = 0 := hn ▸ hcnt_other
      rw [adjFor_eq_zero hcnt_on] at h
      rw [adjFor_eq_zero hcnt_on]
      have hrecn : record.room = n := hroom.trans hn
      rw [if_pos hrecn, hcount]
      by_cases h0 : (decRoom rm actual).adjusted ≤ 0
      · rw [if_pos h0, adjFor_nil]
        rw [hdec] at h0
        omega
      · rw [if_neg h0, adjFor_cons, adjFor_nil, hdecn, if_pos hn, hdec]
        rw [hdec] at h0
        omega
    · rw [if_neg hn] at h
      have hrecn : ¬ (record.room = n) := fun hh => hn (hroom.symm.trans hh)
      rw [if_neg hrecn]
      by_cases h0 : (decRoom rm actual).adjusted ≤ 0
      · rw [if_pos h0, adjFor_nil]
        omega
      · rw [if_neg h0, adjFor_cons, adjFor_nil, hdecn, if_neg hn]
        omega
  · intro hm rec hrec
    rcases List.mem_append.mp hrec with h1 | h1
    · exact hsparse hm rec h1
    · have hre : rec = record := by simpa using h1
      subst hre
      subst hm
      simp only [stepCap] at hcap hcappos
      have hb := hbound rm.roomNo
      rw [adjFor_perm hp1, adjFor_cons, if_pos rfl, hadj_other] at hb
      have hsum : (0 : Int) ≤ (sumCountsFor recs rm.roomNo : Int) := Int.natCast_nonneg _
      rw [hroom, hcount]
      omega

end Seating

namespace Seating

/-- The pool invariant is preserved by a whole run of the per-subject
allocation loop, with the records accumulated into the invariant. -/
theorem allocLoop_inv (mode : Mode) (ctx : Ctx) (B : String → Int) :
    ∀ (fuel : Nat) (pool : Pool) (remaining : Nat) (rolls : List String)
      (acc : List AllocationRecord),
      PoolInv mode B pool acc →
      PoolInv mode B (allocLoop mode ctx fuel pool remaining rolls acc).1
        (allocLoop mode ctx fuel pool remaining rolls acc).2.1 := by
  intro fuel
  induction fuel with
  | zero =>
    intro pool remaining rolls acc h
    exact h
  | succ n ih =>
    intro pool remaining rolls acc h
    rw [allocLoop]
    by_cases h0 : remaining = 0
    · rw [if_pos h0]
      exact h
    · rw [if_neg h0]
      cases hs : allocStep mode ctx pool remaining rolls with
      | stop p =>
        rw [allocStep_stop_spec hs]
        exact h
      | skip p =>
        obtain ⟨f, rm, hf, hmem, hsta, hp⟩ := allocStep_skip_spec hs
        refine ih p remaining rolls acc ?_
        rw [hp]
        exact PoolInv_eraseRoom h hmem
      | alloc p newRec actual =>
        obtain ⟨f, rm, hf, hmem, hsta, hact, hpool, hrec⟩ := allocStep_alloc_spec hs
        refine ih p (remaining - actual) (rolls.drop actual) (acc ++ [newRec]) ?_
        rw [hpool]
        refine PoolInv_updatePool h hmem (by rw [hrec]) (by rw [hrec]) ?_ (by omega)
        rw [hact, List.length_take]
        omega

/-- The pool invariant is preserved by the per-group fold over the subject
list. -/
theorem allocGroup_inv (mode : Mode) (roster : List (String × String))
    (k : String × String × String) (B : String → Int) :
    ∀ (subjects : List String) (pool : Pool) (recs : List AllocationRecord),
      PoolInv mode B pool recs →
      PoolInv mode B
        (subjects.foldl
          (fun st subj =>
            let r := allocLoop mode
              { date := k.1, day := k.2.1, session := k.2.2, course_code := subj }
              100 st.1 (get_rolls_for_subject roster subj).length
              (get_rolls_for_subject roster subj) st.2
            (r.1, r.2.1)) (pool, recs)).1
        (subjects.foldl
          (fun st subj =>
            let r := allocLoop mode
              { date := k.1, day := k.2.1, session := k.2.2, course_code := subj }
              100 st.1 (get_rolls_for_subject roster subj).length
              (get_rolls_for_subject roster subj) st.2
            (r.1, r.2.1)) (pool, recs)).2 := by
  intro subjects
  induction subjects with
  | nil =>
    intro pool recs h
    exact h
  | cons subj rest ih =>
    intro pool recs h
    rw [List.foldl_cons]
    exact ih _ _
      (allocLoop_inv mode
        { date := k.1, day := k.2.1, session := k.2.2, course_code := subj } B 100
        pool (get_rolls_for_subject roster subj).length
        (get_rolls_for_subject roster subj) recs h)

/-- The invariant applied to allocGroup itself. -/
theorem allocGroup_inv_apply (mode : Mode) (roster : List (String × String))
    (k : String × String × String) (B : String → Int) (pool : Pool)
    (subjects : List String)
    (h : PoolInv mode B pool []) :
    PoolInv mode B (allocGroup mode roster k pool subjects).1
      (allocGroup mode roster k pool subjects).2 :=
  allocGroup_inv mode roster k B subjects pool [] h

end Seating

namespace Seating

/-! The initial pool built for each session group satisfies the invariant
with the initial adjusted capacities as bounds. -/

theorem poolInsert_keys (p : Pool) (r : Room) :
    (poolInsert p r).map Prod.fst =
      if r.floor ∈ p.map Prod.fst then p.map Prod.fst
      else p.map Prod.fst ++ [r.floor] := by
  induction p with
  | nil => simp [poolInsert]
  | cons e rest ih =>
    obtain ⟨f, rs⟩ := e
    simp only [poolInsert]
    by_cases hf : f = r.floor
    · rw [if_pos hf]
      simp [hf]
    · rw [if_neg hf]
      rw [List.map_cons, ih, List.map_cons]
      simp only [List.mem_cons]
      by_cases hm : r.floor ∈ rest.map Prod.fst
      · rw [if_pos hm, if_pos (Or.inr hm)]
      · rw [if_neg hm, if_neg (by
          rintro (h | h)
          · exact hf h.symm
          · exact hm h)]
        rfl

theorem poolInsert_keys_nodup {p : Pool} (h : (p.map Prod.fst).Nodup) (r : Room) :
    ((poolInsert p r).map Prod.fst).Nodup := by
  rw [poolInsert_keys]
  by_cases hm : r.floor ∈ p.map Prod.fst
  · rw [if_pos hm]
    exact h
  · rw [if_neg hm]
    exact ((List.perm_append_singleton _ _).symm).nodup (List.nodup_cons.mpr ⟨hm, h⟩)

theorem foldl_poolInsert_keys_nodup :
    ∀ (l : List Room) (p : Pool), (p.map Prod.fst).Nodup →
      ((l.foldl poolInsert p).map Prod.fst).Nodup := by
  intro l
  induction l with
  | nil => intro p h; exact h
  | cons r rest ih =>
    intro p h
    rw [List.foldl_cons]
    exact ih _ (poolInsert_keys_nodup h r)

theorem buildPool_keys_nodup (buffer : Int) (raws : List RawRoom) :
    ((buildPool buffer raws).map Prod.fst).Nodup :=
  foldl_poolInsert_keys_nodup _ [] List.nodup_nil

theorem roomsOf_poolInsert (p : Pool) (r : Room) :
    List.Perm (roomsOf (poolInsert p r)) (r :: roomsOf p) := by
  induction p with
  | nil => simp [poolInsert, roomsOf]
  | cons e rest ih =>
    obtain ⟨f, rs⟩ := e
    simp only [poolInsert]
    by_cases hf : f = r.floor
    · rw [if_pos hf, roomsOf_cons, roomsOf_cons, List.append_assoc]
      exact List.perm_middle
    · rw [if_neg hf, roomsOf_cons, roomsOf_cons]
      exact (ih.append_left rs).trans List.perm_middle

theorem roomsOf_foldl_poolInsert :
    ∀ (l : List Room) (p : Pool),
      List.Perm (roomsOf (l.foldl poolInsert p)) (roomsOf p ++ l) := by
  intro l
  induction l with
  | nil => intro p; simp
  | cons r rest ih =>
    intro p
    rw [List.foldl_cons]
    refine (ih (poolInsert p r)).trans ?_
    refine ((roomsOf_poolInsert p r).append_right rest).trans ?_
    exact List.perm_middle.symm

theorem roomsOf_buildPool (buffer : Int) (raws : List RawRoom) :
    List.Perm (roomsOf (buildPool buffer raws)) (raws.map (mkRoom buffer)) := by
  refine (roomsOf_foldl_poolInsert _ []).trans ?_
  simp only [roomsOf_nil, List.nil_append]
  exact List.perm_insertionSort _ _

theorem countP_le_one_of_nodup_map {α β : Type} [DecidableEq β] (f : α → β) :
    ∀ {l : List α}, (l.map f).Nodup → ∀ n : β,
      l.countP (fun x => decide (f x = n)) ≤ 1 := by
  intro l
  induction l with
  | nil => intro _ n; simp
  | cons x xs ih =>
    intro h n
    rw [List.map_cons, List.nodup_cons] at h
    rw [List.countP_cons]
    by_cases hx : f x = n
    · have h0 : xs.countP (fun y => decide (f y = n)) = 0 := by
        apply List.countP_eq_zero.mpr
        intro y hy hpy
        simp only [decide_eq_true_eq] at hpy
        exact h.1 (hx ▸ hpy ▸ List.mem_map_of_mem f hy)
      simp [h0, hx]
    · have := ih h.2 n
      simp [hx]
      omega

theorem countFor_map_mkRoom (buffer : Int) (raws : List RawRoom)
    (hnd : (raws.map RawRoom.roomNo).Nodup) (n : String) :
    countFor (raws.map (mkRoom buffer)) n ≤ 1 := by
  have h1 : countFor (raws.map (mkRoom buffer)) n =
      raws.countP (fun raw => decide (raw.roomNo = n)) := by
    simp only [countFor, ← List.countP_eq_length_filter, List.countP_map]
    apply List.countP_congr
    intro raw hraw
    simp [mkRoom]
  rw [h1]
  exact countP_le_one_of_nodup_map RawRoom.roomNo hnd n

theorem initAdj_nil (buffer : Int) (n : String) : initAdj buffer [] n = 0 := rfl

theorem adjFor_map_mkRoom (buffer : Int) :
    ∀ (raws : List RawRoom), (raws.map RawRoom.roomNo).Nodup → ∀ n : String,
      adjFor (raws.map (mkRoom buffer)) n = initAdj buffer raws n := by
  intro raws
  induction raws with
  | nil => intro _ n; rfl
  | cons raw rest ih =>
    intro hnd n
    rw [List.map_cons, List.nodup_cons] at hnd
    rw [List.map_cons, adjFor_cons]
    by_cases hr : raw.roomNo = n
    · have hz : countFor (rest.map (mkRoom buffer)) n = 0 := by
        have := countFor_map_mkRoom buffer rest hnd.2 n
        by_contra hne
        have h1 : 1 ≤ countFor (rest.map (mkRoom buffer)) n := by omega
        have h2 : (rest.map (mkRoom buffer)).filter
            (fun r => decide (r.roomNo = n)) ≠ [] := by
          intro hnil
          simp only [countFor, hnil] at h1
          simp at h1
        rcases List.exists_mem_of_ne_nil _ h2 with ⟨r2, hr2⟩
        have hr2f := List.mem_filter.mp hr2
        rcases List.mem_map.mp hr2f.1 with ⟨raw2, hraw2, hmk⟩
        have : raw2.roomNo = n := by
          have := hr2f.2
          simp only [decide_eq_true_eq] at this
          rw [← hmk] at this
          simpa [mkRoom] using this
        exact hnd.1 (hr ▸ this ▸ List.mem_map_of_mem RawRoom.roomNo hraw2)
      rw [adjFor_eq_zero hz]
      have hmkn : (mkRoom buffer raw).roomNo = n := hr
      rw [if_pos hmkn]
      unfold initAdj
      rw [List.find?_cons_of_pos _ (by simpa using hr)]
      simp [mkRoom]
    · have hmkn : ¬ ((mkRoom buffer raw).roomNo = n) := hr
      rw [if_neg hmkn, ih hnd.2 n]
      unfold initAdj
      rw [List.find?_cons_of_neg _ (by simpa using hr)]
      omega

theorem find?_roomNo_of_mem {raws : List RawRoom} {raw : RawRoom}
    (hnd : (raws.map RawRoom.roomNo).Nodup) (hraw : raw ∈ raws) :
    raws.find? (fun x => decide (x.roomNo = raw.roomNo)) = some raw := by
  induction raws with
  | nil => cases hraw
  | cons x rest ih =>
    rw [List.map_cons, List.nodup_cons] at hnd
    rcases List.mem_cons.mp hraw with h1 | h1
    · subst h1
      rw [List.find?_cons_of_pos _ (by simp)]
    · have hxne : ¬ (x.roomNo = raw.roomNo) := by
        intro heq
        exact hnd.1 (heq ▸ List.mem_map_of_mem RawRoom.roomNo h1)
      rw [List.find?_cons_of_neg _ (by simpa using hxne)]
      exact ih hnd.2 h1

theorem initAdj_of_mem {buffer : Int} {raws : List RawRoom} {raw : RawRoom}
    (hnd : (raws.map RawRoom.roomNo).Nodup) (hraw : raw ∈ raws) :
    initAdj buffer raws raw.roomNo = raw.examCapacity - buffer := by
  unfold initAdj
  rw [find?_roomNo_of_mem hnd hraw]

theorem PoolInv_init (mode : Mode) (buffer : Int) (raws : List RawRoom)
    (hnd : (raws.map RawRoom.roomNo).Nodup) :
    PoolInv mode (initAdj buffer raws) (buildPool buffer raws) [] := by
  refine ⟨buildPool_keys_nodup buffer raws, ?_, ?_, ?_⟩
  · intro n
    rw [countFor_perm (roomsOf_buildPool buffer raws)]
    exact countFor_map_mkRoom buffer raws hnd n
  · intro n
    rw [adjFor_perm (roomsOf_buildPool buffer raws), adjFor_map_mkRoom buffer raws hnd n]
    have hz : sumCountsFor [] n = 0 := rfl
    rw [hz]
    simp
  · intro _ rec hrec
    cases hrec

end Seating

namespace Seating

/-! Group records carry the key of their session group. -/

theorem allocLoop_keys (mode : Mode) (ctx : Ctx) :
    ∀ (fuel : Nat) (pool : Pool) (remaining : Nat) (rolls : List String)
      (acc : List AllocationRecord),
      (∀ rec ∈ acc, recKeyOf rec = (ctx.date, ctx.day, ctx.session)) →
      ∀ rec ∈ (allocLoop mode ctx fuel pool remaining rolls acc).2.1,
        recKeyOf rec = (ctx.date, ctx.day, ctx.session) := by
  intro fuel
  induction fuel with
  | zero =>
    intro pool remaining rolls acc hacc
    exact hacc
  | succ n ih =>
    intro pool remaining rolls acc hacc
    rw [allocLoop]
    by_cases h0 : remaining = 0
    · rw [if_pos h0]
      exact hacc
    · rw [if_neg h0]
      cases hs : allocStep mode ctx pool remaining rolls with
      | stop p => exact hacc
      | skip p => exact ih p remaining rolls acc hacc
      | alloc p newRec actual =>
        obtain ⟨f, rm, hf, hmem, hsta, hact, hpool, hrec⟩ := allocStep_alloc_spec hs
        refine ih p (remaining - actual) (rolls.drop actual) (acc ++ [newRec]) ?_
        intro rec hr
        rcases List.mem_append.mp hr with h1 | h1
        · exact hacc rec h1
        · have : rec = newRec := by simpa using h1
          subst this
          rw [hrec]
          rfl

theorem allocGroup_keys (mode : Mode) (roster : List (String × String))
    (k : String × String × String) :
    ∀ (subjects : List String) (pool : Pool) (recs : List AllocationRecord),
      (∀ rec ∈ recs, recKeyOf rec = k) →
      ∀ rec ∈ (subjects.foldl
          (fun st subj =>
            let r := allocLoop mode
              { date := k.1, day := k.2.1, session := k.2.2, course_code := subj }
              100 st.1 (get_rolls_for_subject roster subj).length
              (get_rolls_for_subject roster subj) st.2
            (r.1, r.2.1)) (pool, recs)).2,
        recKeyOf rec = k := by
  intro subjects
  induction subjects with
  | nil =>
    intro pool recs h
    exact h
  | cons subj rest ih =>
    intro pool recs h
    rw [List.foldl_cons]
    refine ih _ _ ?_
    intro rec hr
    exact allocLoop_keys mode
      { date := k.1, day := k.2.1, session := k.2.2, course_code := subj } 100
      pool (get_rolls_for_subject roster subj).length
      (get_rolls_for_subject roster subj) recs h rec hr

theorem allocGroup_keys_apply (mode : Mode) (roster : List (String × String))
    (k : String × String × String) (pool : Pool) (subjects : List String) :
    ∀ rec ∈ (allocGroup mode roster k pool subjects).2, recKeyOf rec = k :=
  allocGroup_keys mode roster k subjects pool [] (fun rec hr => absurd hr (by simp))

theorem sumCountsFor_append (l1 l2 : List AllocationRecord) (n : String) :
    sumCountsFor (l1 ++ l2) n = sumCountsFor l1 n + sumCountsFor l2 n := by
  simp [sumCountsFor, List.filter_append]

theorem sumCountsFor_filter_flatMap
    (g : (String × String × String) → List AllocationRecord)
    (hkey : ∀ k2 rec, rec ∈ g k2 → recKeyOf rec = k2) :
    ∀ (ks : List (String × String × String)), ks.Nodup →
      ∀ (k : String × String × String) (n : String),
      sumCountsFor ((ks.flatMap g).filter (fun rec => decide (recKeyOf rec = k))) n =
        if k ∈ ks then sumCountsFor (g k) n else 0 := by
  intro ks
  induction ks with
  | nil =>
    intro _ k n
    simp [sumCountsFor]
  | cons k2 ks ih =>
    intro hn k n
    rcases List.nodup_cons.mp hn with ⟨hk2, hns⟩
    rw [List.flatMap_cons, List.filter_append, sumCountsFor_append]
    by_cases hkk : k2 = k
    · subst hkk
      have hhead : (g k2).filter (fun rec => decide (recKeyOf rec = k2)) = g k2 :=
        List.filter_eq_self.mpr (fun rec hr => by simp [hkey k2 rec hr])
      have htail : k2 ∉ ks := hk2
      rw [hhead, ih hns k2 n, if_neg htail, if_pos (List.mem_cons_self _ _)]
      have hz : sumCountsFor [] n = 0 := rfl
      omega
    · have hhead : (g k2).filter (fun rec => decide (recKeyOf rec = k)) = [] :=
        List.filter_eq_nil_iff.mpr
          (fun rec hr => by simp [hkey k2 rec hr]; exact fun hh => hkk hh)
      rw [hhead, ih hns k n]
      have hmem : (k ∈ k2 :: ks) ↔ (k ∈ ks) := by
        simp only [List.mem_cons]
        constructor
        · rintro (h | h)
          · exact absurd h.symm hkk
          · exact h
        · exact Or.inr
      by_cases hk : k ∈ ks
      · rw [if_pos hk, if_pos (hmem.mpr hk)]
        have hz : sumCountsFor [] n = 0 := rfl
        omega
      · rw [if_neg hk, if_neg (fun hh => hk (hmem.mp hh))]
        have hz : sumCountsFor [] n = 0 := rfl
        omega

/-- C1 amended: the capacity invariant holds for the groups the code
actually forms (keyed by date, day and session: two day labels under one
date get two fresh pools) and with the adjusted capacity clamped at zero
(a buffer larger than the exam capacity yields a negative adjusted
capacity and no seats). In dense mode, for every room the records of one
session group sum to at most max(exam-capacity minus buffer, 0); in sparse
mode every individual record for a room seats at most
floor((exam-capacity minus buffer) divided by 2) students. -/
theorem capacity_invariant_amended :
    ∀ (mode : Mode) (buffer : Int) (schedule : List ExamSlot)
      (roster : List (String × String)) (roomTable : List RawRoom),
      (roomTable.map RawRoom.roomNo).Nodup →
      ∀ raw, raw ∈ roomTable →
        ∀ k : String × String × String,
        (mode = Mode.dense →
          (sumCountsFor ((allocate_seats mode buffer schedule roster roomTable).filter
              (fun rec => decide (recKeyOf rec = k))) raw.roomNo : Int) ≤
            max (raw.examCapacity - buffer) 0) ∧
        (mode = Mode.sparse →
          ∀ rec ∈ allocate_seats mode buffer schedule roster roomTable,
            rec.room = raw.roomNo →
            (rec.allocated_student_count : Int) ≤ (raw.examCapacity - buffer) / 2) := by
  intro mode buffer schedule roster roomTable hnd raw hraw k
  have hBraw : initAdj buffer roomTable raw.roomNo = raw.examCapacity - buffer :=
    initAdj_of_mem hnd hraw
  have hinvg : ∀ k2, PoolInv mode (initAdj buffer roomTable)
      (allocGroup mode roster k2 (buildPool buffer roomTable)
        (sortedSubjects schedule roster k2)).1
      (allocGroup mode roster k2 (buildPool buffer roomTable)
        (sortedSubjects schedule roster k2)).2 :=
    fun k2 => allocGroup_inv_apply mode roster k2 (initAdj buffer roomTable)
      (buildPool buffer roomTable) (sortedSubjects schedule roster k2)
      (PoolInv_init mode buffer roomTable hnd)
  constructor
  · intro hd
    have hsum := sumCountsFor_filter_flatMap
      (fun k2 => (allocGroup mode roster k2 (buildPool buffer roomTable)
        (sortedSubjects schedule roster k2)).2)
      (fun k2 rec hr => allocGroup_keys_apply mode roster k2 _ _ rec hr)
      (groupKeys schedule) (nodup_groupKeys schedule) k raw.roomNo
    show (sumCountsFor (((groupKeys schedule).flatMap
        (fun k2 => (allocGroup mode roster k2 (buildPool buffer roomTable)
          (sortedSubjects schedule roster k2)).2)).filter
        (fun rec => decide (recKeyOf rec = k))) raw.roomNo : Int) ≤
      max (raw.examCapacity - buffer) 0
    rw [hsum, ← hBraw]
    by_cases hk : k ∈ groupKeys schedule
    · rw [if_pos hk]
      have hb := (hinvg k).2.2.1 raw.roomNo
      omega
    · rw [if_neg hk]
      simp only [Nat.cast_zero]
      omega
  · intro hsp rec hrec hroom
    rcases List.mem_flatMap.mp hrec with ⟨k2, hk2, hrg⟩
    have hs := (hinvg k2).2.2.2 hsp rec hrg
    rw [hroom, hBraw] at hs
    exact hs

/-- C1 witness: one student seated in room 101 (capacity 3, buffer 1) on
the single group of the one-slot schedule stays within the dense bound. -/
theorem capacity_invariant_witness :
    (sumCountsFor ((allocate_seats Mode.dense 1 sched1 roster1 rooms1).filter
        (fun rec => decide (recKeyOf rec = ("d1", "Mon", "morning")))) "101" : Int) ≤
      max ((3 : Int) - 1) 0 :=
  (capacity_invariant_amended Mode.dense 1 sched1 roster1 rooms1 (by decide)
    ⟨"101", 3, "B"⟩ (by decide) ("d1", "Mon", "morning")).1 rfl

end Seating
